import Mathlib

/-!
Verification development for the WebSearch MCP service
(`MCP/websearch/websearch`).  The Python sources are shallowly embedded:
pure functions become Lean functions over `String`/`List Char`, machine
integers become `Nat`/`Int`, fallible code returns `Option`/`Except`, and
calls into external libraries (HTTP, BeautifulSoup, trafilatura, the noise
rule files) become explicit inputs of the embedded functions.
-/

namespace WebSearch

/-! ## Python string primitives

`pyIsSpace` is the character class stripped by Python `str.strip()` (the
Unicode whitespace set).  `splitlinesL` follows `str.splitlines`: it splits
on the Unicode line boundaries, treating `\r\n` as a single boundary, and a
trailing terminator produces no extra empty line. -/

def pyIsSpace (c : Char) : Bool :=
  c = ' ' || (9 ≤ c.toNat && c.toNat ≤ 13) || (0x1c ≤ c.toNat && c.toNat ≤ 0x1f) ||
  c.toNat = 0x85 || c.toNat = 0xa0 || c.toNat = 0x1680 ||
  (0x2000 ≤ c.toNat && c.toNat ≤ 0x200a) ||
  c.toNat = 0x2028 || c.toNat = 0x2029 || c.toNat = 0x202f ||
  c.toNat = 0x205f || c.toNat = 0x3000

def stripL (l : List Char) : List Char := l.dropWhile pyIsSpace

def stripR (l : List Char) : List Char := (l.reverse.dropWhile pyIsSpace).reverse

def stripLR (l : List Char) : List Char := stripR (stripL l)

/-- Python `str.strip()` with no argument. -/
def pyStrip (s : String) : String := ⟨stripLR s.toList⟩

/-- Python `str.lower()` (ASCII; the URLs and keys compared in the source
are ASCII). -/
def toLowerStr (s : String) : String := ⟨s.toList.map Char.toLower⟩

def isLineBreak (c : Char) : Bool :=
  c = '\n' || c = '\r' || c.toNat = 0x0b || c.toNat = 0x0c ||
  c.toNat = 0x1c || c.toNat = 0x1d || c.toNat = 0x1e ||
  c.toNat = 0x85 || c.toNat = 0x2028 || c.toNat = 0x2029

def splitlinesGo : Bool → List Char → List Char → List (List Char)
  | _, acc, [] => if acc.isEmpty then [] else [acc.reverse]
  | afterCR, acc, c :: rest =>
      if afterCR && c = '\n' then splitlinesGo false acc rest
      else if isLineBreak c then acc.reverse :: splitlinesGo (c = '\r') [] rest
      else splitlinesGo false (c :: acc) rest

/-- Python `str.splitlines()`.  The `afterCR` flag makes a `\n` directly
after a `\r` part of the same (already emitted) `\r\n` boundary. -/
def splitlinesL (l : List Char) : List (List Char) := splitlinesGo false [] l

/-- `"\n".join(lines)` at the `List Char` level. -/
def joinNL : List (List Char) → List Char
  | [] => []
  | [l] => l
  | l :: ls => l ++ '\n' :: joinNL ls

/-- Substring containment, Python `needle in hay`. -/
def hasSub : List Char → List Char → Bool
  | [], needle => needle.isEmpty
  | c :: t, needle => needle.isPrefixOf (c :: t) || hasSub t needle

def strHasSub (hay needle : String) : Bool := hasSub hay.toList needle.toList

def startsWithL (l p : List Char) : Bool := p.isPrefixOf l

/-- Python `str.startswith`. -/
def pyStartsWith (s p : String) : Bool := startsWithL s.toList p.toList

/-- Python `str.endswith`. -/
def pyEndsWith (s p : String) : Bool := p.toList.reverse.isPrefixOf s.toList.reverse

/-- Split at the first occurrence of `c`; `none` when `c` is absent
(Python `s.split(c, 1)`). -/
def splitOnFirst (c : Char) (l : List Char) : List Char × Option (List Char) :=
  match l.findIdx? (· = c) with
  | some i => (l.take i, some (l.drop (i + 1)))
  | none => (l, none)

/-- Split at every occurrence of `c` (Python `s.split(c)`). -/
def splitOnChar (c : Char) : List Char → List (List Char)
  | [] => [[]]
  | x :: t =>
      if x = c then [] :: splitOnChar c t
      else
        match splitOnChar c t with
        | h :: r => (x :: h) :: r
        | [] => [[x]]

/-- Index of the last occurrence of `c` (Python `s.rfind(c)` when present). -/
def rfindIdx (c : Char) (l : List Char) : Option Nat :=
  match (l.reverse).findIdx? (· = c) with
  | some j => some (l.length - 1 - j)
  | none => none

/-! ## `urllib.parse` model

`urlparsePy` follows CPython `urllib.parse.urlsplit`/`urlparse`: remove the
unsafe bytes tab/CR/LF, split off a scheme when the text before the first
`:` is a letter-led run of scheme characters, take the netloc after a
leading `//` up to the first `/?#`, split the fragment at the first `#`,
the query at the first `?`, and the params at the last-segment `;`.
CPython raises `ValueError` for netlocs with unbalanced (or invalid
bracketed-IPv6) brackets; any bracket in the netloc is modelled as the
error case, which the repository's callers catch.  The NFKC netloc check
for exotic non-ASCII netlocs is not modelled; no claim depends on it. -/

def isSchemeChar (c : Char) : Bool :=
  c.isAlpha || c.isDigit || c = '+' || c = '-' || c = '.'

def removeUnsafe (l : List Char) : List Char :=
  l.filter (fun c => !(c = '\t' || c = '\r' || c = '\n'))

def splitScheme (l : List Char) : String × List Char :=
  match l.findIdx? (· = ':') with
  | some i =>
      if 0 < i && (l.headD ' ').isAlpha && (l.take i).all isSchemeChar then
        (toLowerStr ⟨l.take i⟩, l.drop (i + 1))
      else ("", l)
  | none => ("", l)

def splitNetloc (l : List Char) : List Char × List Char :=
  let netloc := l.takeWhile (fun c => !(c = '/' || c = '?' || c = '#'))
  (netloc, l.drop netloc.length)

def splitParamsPy (p : List Char) : List Char × List Char :=
  if p.contains ';' then
    if p.contains '/' then
      match rfindIdx '/' p with
      | some s =>
          match (p.drop s).findIdx? (· = ';') with
          | some j => (p.take (s + j), p.drop (s + j + 1))
          | none => (p, [])
      | none => (p, [])
    else
      match p.findIdx? (· = ';') with
      | some i => (p.take i, p.drop (i + 1))
      | none => (p, [])
  else (p, [])

structure UrlParts where
  scheme : String
  netloc : String
  path : String
  params : String
  query : String
  fragment : String

def urlparsePy (url : String) : Except Unit UrlParts :=
  let l := removeUnsafe url.toList
  let sr := splitScheme l
  let scheme := sr.1
  let rest := sr.2
  let nr := if startsWithL rest ['/', '/'] then splitNetloc (rest.drop 2) else ([], rest)
  let netloc := nr.1
  let rest := nr.2
  if netloc.contains '[' || netloc.contains ']' then .error ()
  else
    let fr := splitOnFirst '#' rest
    let fragment := (fr.2).getD []
    let qr := splitOnFirst '?' fr.1
    let query := (qr.2).getD []
    let pp := splitParamsPy qr.1
    .ok { scheme := scheme, netloc := ⟨netloc⟩, path := ⟨pp.1⟩,
          params := ⟨pp.2⟩, query := ⟨query⟩, fragment := ⟨fragment⟩ }

/-- Hex digit value for percent decoding (`unquote` accepts both cases). -/
def hexVal (c : Char) : Option Nat :=
  if c.isDigit then some (c.toNat - 48)
  else if 65 ≤ c.toNat && c.toNat ≤ 70 then some (c.toNat - 55)
  else if 97 ≤ c.toNat && c.toNat ≤ 102 then some (c.toNat - 87)
  else none

/-- Percent-decoding core of `urllib.parse.unquote`.  A decoded byte is
modelled as the code point of that value; CPython instead decodes byte
runs as UTF-8 with replacement, which differs only for non-ASCII
escapes, on which no claim depends. -/
def unquoteGo : List Char → List Char
  | [] => []
  | '%' :: a :: b :: t =>
      match hexVal a, hexVal b with
      | some x, some y => Char.ofNat (16 * x + y) :: unquoteGo t
      | _, _ => '%' :: unquoteGo (a :: b :: t)
  | '%' :: t => '%' :: unquoteGo t
  | c :: t => c :: unquoteGo t

/-- Python `urllib.parse.unquote_plus`. -/
def unquotePlus (s : String) : String :=
  ⟨unquoteGo (s.toList.map (fun c => if c = '+' then ' ' else c))⟩

/-- Python `urllib.parse.parse_qsl(qs, keep_blank_values=False)`:
split on `&`, drop empty chunks, drop chunks without `=` and chunks whose
raw value is empty, and percent-plus-decode both name and value. -/
def parseQsl (qs : String) : List (String × String) :=
  (splitOnChar '&' qs.toList).foldr
    (fun chunk acc =>
      if chunk.isEmpty then acc
      else
        match splitOnFirst '=' chunk with
        | (_, none) => acc
        | (name, some value) =>
            if value.isEmpty then acc
            else (unquotePlus ⟨name⟩, unquotePlus ⟨value⟩) :: acc)
    []

/-- `dict(parse_qsl(...)).get(k)`: the last pair for a duplicated key wins. -/
def dictGet (pairs : List (String × String)) (k : String) : Option String :=
  match pairs.reverse.find? (fun p => p.1 = k) with
  | some p => some p.2
  | none => none

def hexDigitU (n : Nat) : Char :=
  if n < 10 then Char.ofNat (48 + n) else Char.ofNat (55 + n)

def isQuoteSafe (c : Char) : Bool :=
  c.isAlphanum || c = '_' || c = '.' || c = '-' || c = '~'

/-- UTF-8 bytes of one scalar value (used by `quote_plus` on encoding). -/
def utf8Bytes (c : Char) : List Nat :=
  let n := c.toNat
  if n < 0x80 then [n]
  else if n < 0x800 then [0xC0 + n / 0x40, 0x80 + n % 0x40]
  else if n < 0x10000 then
    [0xE0 + n / 0x1000, 0x80 + (n / 0x40) % 0x40, 0x80 + n % 0x40]
  else
    [0xF0 + n / 0x40000, 0x80 + (n / 0x1000) % 0x40,
     0x80 + (n / 0x40) % 0x40, 0x80 + n % 0x40]

/-- Python `urllib.parse.quote_plus` with the default safe set. -/
def quotePlus (s : String) : String :=
  ⟨s.toList.foldr
    (fun c acc =>
      if c = ' ' then '+' :: acc
      else if isQuoteSafe c then c :: acc
      else (utf8Bytes c).foldr
        (fun b a => '%' :: hexDigitU (b / 16) :: hexDigitU (b % 16) :: a) acc)
    []⟩

def joinAmp : List String → String
  | [] => ""
  | [x] => x
  | x :: r => x ++ "&" ++ joinAmp r

/-- Python `urllib.parse.urlencode(pairs, doseq=True)` on string pairs. -/
def urlencodePairs (pairs : List (String × String)) : String :=
  joinAmp (pairs.map (fun p => quotePlus p.1 ++ "=" ++ quotePlus p.2))

/-- Code-point lexicographic `<` on strings, Python's `str` ordering. -/
def strLtCP : List Char → List Char → Bool
  | [], [] => false
  | [], _ :: _ => true
  | _ :: _, [] => false
  | a :: xs, b :: ys =>
      if a.toNat < b.toNat then true
      else if b.toNat < a.toNat then false
      else strLtCP xs ys

/-- Python tuple `<` on `(str, str)` pairs. -/
def pairLt (p q : String × String) : Bool :=
  strLtCP p.1.toList q.1.toList ||
    (p.1 = q.1 && strLtCP p.2.toList q.2.toList)

def insertPair (x : String × String) :
    List (String × String) → List (String × String)
  | [] => [x]
  | y :: t => if pairLt x y then x :: y :: t else y :: insertPair x t

/-- Python `sorted` on `(str, str)` pairs (stable, ascending). -/
def sortPairs (l : List (String × String)) : List (String × String) :=
  l.foldl (fun acc x => insertPair x acc) []

/-- CPython `urlunparse`/`urlunsplit`. -/
def urlunparsePy (p : UrlParts) : String :=
  let url := p.path ++ (if p.params.isEmpty then "" else ";" ++ p.params)
  let url :=
    if !p.netloc.isEmpty || pyStartsWith url "//" then
      "//" ++ p.netloc ++
        (if !url.isEmpty && !pyStartsWith url "/" then "/" ++ url else url)
    else url
  let url := if !p.scheme.isEmpty then p.scheme ++ ":" ++ url else url
  let url := if !p.query.isEmpty then url ++ "?" ++ p.query else url
  if !p.fragment.isEmpty then url ++ "#" ++ p.fragment else url

/-! ## `utils/url_helpers.py` -/

/-- `_TRACKING_QUERY_KEYS` from `url_helpers.py`, verbatim. -/
def trackingQueryKeys : List String :=
  ["utm_source", "utm_medium", "utm_campaign", "utm_term", "utm_content",
   "utm_id", "gclid", "fbclid", "igshid", "spm", "spm_id_from",
   "from", "from_source", "source", "sourcefrom",
   "share_source", "share_medium", "share_platform", "share_id",
   "share_from", "shareuid", "scene", "platform",
   "ref", "refer", "ref_source", "referrer",
   "vd_source", "_t", "_r", "mpshare"]

/-- The `//`/`www.` upgrade applied by `unwrap_redirect_url` (and by
`normalize_url_for_dedup`) to the stripped input. -/
def redirectPrefixApply (raw : String) : String :=
  if pyStartsWith raw "//" then "https:" ++ raw
  else if pyStartsWith raw "www." then "https://" ++ raw
  else raw

/-- Python `s.rstrip("/")`. -/
def rstripSlash (s : String) : String :=
  ⟨(s.toList.reverse.dropWhile (· = '/')).reverse⟩

def dropRightStr (s : String) (n : Nat) : String :=
  ⟨s.toList.take (s.toList.length - n)⟩

/-- `normalize_url_for_dedup` from `url_helpers.py`.  The `except` branch
around `urlparse` (reached for bracketed netlocs in the model) returns the
prefix-upgraded input, exactly as the source returns its local `raw`. -/
def normalizeUrlForDedup (url : String) : String :=
  if url.isEmpty then ""
  else
    let raw := redirectPrefixApply (pyStrip url)
    match urlparsePy raw with
    | .error _ => raw
    | .ok p =>
        let scheme := toLowerStr (if p.scheme.isEmpty then "https" else p.scheme)
        let netloc := toLowerStr p.netloc
        let path := p.path
        let netloc :=
          if pyEndsWith netloc ":80" && scheme = "http" then dropRightStr netloc 3
          else netloc
        let netloc :=
          if pyEndsWith netloc ":443" && scheme = "https" then dropRightStr netloc 4
          else netloc
        let filteredPairs :=
          (parseQsl p.query).filter
            (fun kv => !(trackingQueryKeys.contains (toLowerStr kv.1)))
        let query := urlencodePairs (sortPairs filteredPairs)
        let normalizedPath :=
          let r := rstripSlash path
          if r.isEmpty then "/" else r
        urlunparsePy { scheme := scheme, netloc := netloc, path := normalizedPath,
                       params := "", query := query, fragment := "" }

def redirectParamCandidates : List String :=
  ["uddg", "target", "url", "q", "u", "to",
   "dest", "destination", "redir", "redirect"]

/-- Python truthiness `a or b` over optional query values. -/
def pyOr (a b : Option String) : Option String :=
  match a with
  | some v => if v.isEmpty then b else some v
  | none => b

/-- One redirector arm: the extracted value is returned only when it is a
nonempty string beginning with `http`; otherwise control falls through. -/
def armOk (t : Option String) : Option String :=
  match t with
  | some v => if !v.isEmpty && pyStartsWith v "http" then some v else none
  | none => none

def firstHttpParam (params : List (String × String)) : List String → Option String
  | [] => none
  | k :: rest =>
      match armOk (dictGet params k) with
      | some t => some t
      | none => firstHttpParam params rest

/-- Sequential early-return: the first arm that produced a target wins. -/
def orElseArm (a b : Option String) : Option String :=
  match a with
  | some t => some t
  | none => b

/-- The redirector-matching body of `unwrap_redirect_url`: the sequence of
`if` arms over `(netloc, path, params)`; `some t` means an arm returned
the target `t`, `none` means the function falls through to `return raw`
(the `t.co` arm returns `raw` explicitly and precedes the Pinterest arm). -/
def unwrapExtract (netloc path : String) (params : List (String × String)) :
    Option String :=
  orElseArm
    (if pyEndsWith netloc "duckduckgo.com" && pyStartsWith path "/l/" then
      armOk (dictGet params "uddg")
    else none) <|
  orElseArm
    (if netloc = "link.zhihu.com" then armOk (dictGet params "target") else none) <|
  orElseArm
    (if pyEndsWith netloc "search.brave.com" &&
        (strHasSub path "redirect" || pyStartsWith netloc "r.") then
      armOk (pyOr (dictGet params "url") (dictGet params "q"))
    else none) <|
  orElseArm
    (if pyEndsWith netloc "google.com" && pyStartsWith path "/url" then
      armOk (pyOr (dictGet params "q") (dictGet params "url"))
    else none) <|
  orElseArm
    (if pyEndsWith netloc "youtube.com" && pyStartsWith path "/redirect" then
      armOk (pyOr (dictGet params "q") (dictGet params "url"))
    else none) <|
  orElseArm
    (if pyEndsWith netloc "steamcommunity.com" && strHasSub path "linkfilter" then
      armOk (dictGet params "url")
    else none) <|
  orElseArm
    (if netloc = "l.facebook.com" then armOk (dictGet params "u") else none) <|
  (if netloc = "t.co" then none
   else if netloc = "redirect.pinterest.com" then
     firstHttpParam params redirectParamCandidates
   else none)

/-- Target extraction for an already stripped-and-upgraded URL: parse
(the `except` branch yields `none`, i.e. `return raw`), lowercase the
netloc, read the query pairs as a dict, and run the redirector arms. -/
def extractTargetOf (raw : String) : Option String :=
  match urlparsePy raw with
  | .error _ => none
  | .ok p => unwrapExtract (toLowerStr p.netloc) p.path (parseQsl p.query)

/-- `unwrap_redirect_url` from `url_helpers.py`. -/
def unwrapRedirectUrl (url : String) : String :=
  let raw := pyStrip url
  if raw.isEmpty then ""
  else
    let raw := redirectPrefixApply raw
    match extractTargetOf raw with
    | some t => t
    | none => raw

/-- Netloc → hostname, CPython `SplitResult.hostname` (`_hostinfo`):
text after the last `@`, then the bracketed host if a `[` is present,
else the text before the first `:`, lowercased (empty for no host). -/
def hostnameOfNetloc (netloc : String) : String :=
  let hostinfo :=
    match rfindIdx '@' netloc.toList with
    | some i => netloc.toList.drop (i + 1)
    | none => netloc.toList
  if hostinfo.contains '[' then
    toLowerStr ⟨((hostinfo.dropWhile (· ≠ '[')).drop 1).takeWhile (· ≠ ']')⟩
  else
    toLowerStr ⟨hostinfo.takeWhile (· ≠ ':')⟩

/-- `get_hostname` from `url_helpers.py`: `""` on parse failure. -/
def getHostname (url : String) : String :=
  match urlparsePy url with
  | .error _ => ""
  | .ok p => hostnameOfNetloc p.netloc

/-! ## `content_parse.limit_content_length`

The source reads `cfg.max_token_limit` from the runtime config; the limit
is passed explicitly here.  Python slicing `content[:k]` keeps the first
`k` code points. -/

def limitContentLength (maxTokenLimit : Nat) (content : String) : String × Bool :=
  let estimatedTokens := content.length / 4
  if estimatedTokens > maxTokenLimit then
    (⟨content.toList.take (maxTokenLimit * 4)⟩, true)
  else
    (content, false)

/-! ## `utils/extraction.py`: noise filtering and cleaners

`_is_noise_line` matches the stripped line against compiled regex rules and
a compacted-substring rule set loaded from the package's rule files at
runtime.  That rule matching is a deterministic function of the stripped
line; it is abstracted as the parameter `p : String → Bool`.  The in-source
structure — empty and all-whitespace lines are never noise, and the rules
see the stripped line — is kept. -/

def isNoiseLinePred (p : String → Bool) (line : String) : Bool :=
  if line.isEmpty then false
  else
    let stripped := pyStrip line
    if stripped.isEmpty then false else p stripped

/-- The line loop of `_clean_extracted_text`.  The source appends a blank
only when `lines` is nonempty and its last entry is nonblank; that guard
is carried as the flag `lastContent` (`true` exactly when the last
appended line was nonblank, `false` before the first append and after
appending a blank). -/
def cleanLinesGo (p : String → Bool) : Bool → List (List Char) → List (List Char)
  | _, [] => []
  | lastContent, raw :: rest =>
      let line := stripLR raw
      if line.isEmpty then
        if lastContent then [] :: cleanLinesGo p false rest
        else cleanLinesGo p lastContent rest
      else if isNoiseLinePred p ⟨line⟩ then cleanLinesGo p lastContent rest
      else line :: cleanLinesGo p true rest

/-- `re.sub(r"\n{3,}", "\n\n", ·)`: collapse every run of three or more
newlines to two.  `run` counts the newlines already emitted in the
current run. -/
def collapseNLAux : List Char → Nat → List Char
  | [], _ => []
  | c :: t, run =>
      if c = '\n' then
        if 2 ≤ run then collapseNLAux t (run + 1)
        else '\n' :: collapseNLAux t (run + 1)
      else c :: collapseNLAux t 0

def collapseNL (l : List Char) : List Char := collapseNLAux l 0

/-- `_clean_extracted_text` from `extraction.py`. -/
def cleanExtractedText (p : String → Bool) (text : String) : String :=
  if text.isEmpty then ""
  else ⟨stripLR (collapseNL (joinNL (cleanLinesGo p false (splitlinesL text.toList))))⟩

/-- `re.sub(r"\s*#\s*$", "", line)`: drop the suffix made of optional
whitespace, one `#`, and optional whitespace (the leftmost — hence
longest — such suffix), when present. -/
def subTrailingHash (l : List Char) : List Char :=
  let r := l.reverse.dropWhile pyIsSpace
  match r with
  | '#' :: rest => (rest.dropWhile pyIsSpace).reverse
  | _ => l

/-- Python `s.lstrip("#")`. -/
def lstripHash (l : List Char) : List Char := l.dropWhile (· = '#')

/-- The line loop of `_clean_extracted_markdown` (`inCode` is the fenced
code-block state). -/
def cleanMdGo (p : String → Bool) : Bool → List (List Char) → List (List Char)
  | _, [] => []
  | inCode, raw :: rest =>
      let line := stripR raw
      let stripped := stripLR line
      if startsWithL stripped ['`', '`', '`'] then
        line :: cleanMdGo p (!inCode) rest
      else if inCode then line :: cleanMdGo p inCode rest
      else if stripped.isEmpty then [] :: cleanMdGo p inCode rest
      else
        let isHeading := startsWithL stripped ['#']
        let line2 := if isHeading then subTrailingHash line else line
        let stripped2 := if isHeading then stripLR line2 else stripped
        let candidate :=
          if startsWithL stripped2 ['#'] then stripLR (lstripHash stripped2)
          else stripped2
        if isNoiseLinePred p ⟨candidate⟩ then cleanMdGo p inCode rest
        else line2 :: cleanMdGo p inCode rest

/-- `_clean_extracted_markdown` from `extraction.py`. -/
def cleanExtractedMarkdown (p : String → Bool) (md : String) : String :=
  if md.isEmpty then ""
  else ⟨stripLR (collapseNL (joinNL (cleanMdGo p false (splitlinesL md.toList))))⟩

/-! Invariants of the text cleaner's output, used to settle its
idempotence.  `Canon p last L` says `L` is a possible tail of the line
list built by `_clean_extracted_text`'s loop when the last appended line
was nonblank iff `last`: blanks appear only after a nonblank line and
never twice in a row, and every nonblank line is stripped, break-free and
not a noise line.  `nlCount l run` checks that `l` never extends a
newline run to three (`run` newlines directly precede `l`), i.e. that the
`\n{3,}` collapse is the identity.  `dropTB` removes the single trailing
blank line such a list may end with (the final `strip()` removes the
newline it would contribute). -/

def NoLB (l : List Char) : Prop := ∀ c ∈ l, isLineBreak c = false

def Canon (p : String → Bool) : Bool → List (List Char) → Prop
  | _, [] => True
  | last, l :: rest =>
      if l.isEmpty then last = true ∧ Canon p false rest
      else stripLR l = l ∧ isNoiseLinePred p ⟨l⟩ = false ∧ NoLB l ∧ Canon p true rest

def nlCount : List Char → Nat → Bool
  | [], _ => true
  | c :: t, run =>
      if c = '\n' then
        if 2 ≤ run then false else nlCount t (run + 1)
      else nlCount t 0

def dropTB : List (List Char) → List (List Char)
  | [] => []
  | [l] => if l.isEmpty then [] else [l]
  | l :: rest => l :: dropTB rest

/-! ## `utils/extraction.py`: candidate selection (`_extract_best_content`)

The extractor plans call external libraries (trafilatura, BeautifulSoup);
their raw outputs are inputs here: `raws` lists, in execution order, each
plan's `(extractor tag, raw content)` with `none` for a plan returning
nothing (adapter plans first, general plans after, exactly as the source
iterates them).  `_build_degraded_markdown`/`_build_degraded_text` parse
the page's title/description with BeautifulSoup; their result is the input
`degradedRaw`.  `_score_content` computes the quality score from the
cleaned content with float arithmetic; it is abstracted as the input
`score : String → Nat` (a deterministic function of the cleaned content),
and `char_len` is the source's `len(content.strip())`.  The selection,
deduplication, ranking and fallback logic is translated from the source. -/

structure Tuning where
  adapterMinQuality : Nat
  generalMinQuality : Nat
  bonusAdapter : Nat
  bonusPrecision : Nat
  bonusRecall : Nat
  bonusFast : Nat
  bonusBaseline : Nat
  earlyStopEnabled : Bool
  earlyStopQuality : Nat
  earlyStopChars : Nat

/-- `_INTERNAL_TUNING["quality"]`. -/
def tuningQuality : Tuning := ⟨10, 30, 15, 10, 9, 8, 6, true, 80, 900⟩

/-- `_INTERNAL_TUNING["balanced"]`. -/
def tuningBalanced : Tuning := ⟨8, 25, 13, 9, 8, 8, 5, true, 72, 700⟩

/-- `_INTERNAL_TUNING["speed"]`. -/
def tuningSpeed : Tuning := ⟨6, 18, 10, 8, 7, 9, 4, false, 65, 600⟩

/-- `_INTERNAL_TUNING.get(strategy, _INTERNAL_TUNING["quality"])`. -/
def internalTuning (strategy : String) : Tuning :=
  if strategy = "quality" then tuningQuality
  else if strategy = "balanced" then tuningBalanced
  else if strategy = "speed" then tuningSpeed
  else tuningQuality

structure Candidate where
  content : String
  extractor : String
  qualityScore : Nat
  charLen : Nat
  degraded : Bool

structure ExtState where
  candidates : List Candidate
  seen : List String

def cleanForMode (p : String → Bool) (outputFormat : String) (text : String) : String :=
  if outputFormat = "markdown" then cleanExtractedMarkdown p text
  else cleanExtractedText p text

/-- `_add_candidate`: skip empty raw content, clean for the mode, skip an
empty or already seen cleaned form, otherwise score and append. -/
def addCandidate (p : String → Bool) (fmt : String) (score : String → Nat)
    (st : ExtState) (content : Option String) (extractor : String) :
    ExtState × Option Candidate :=
  match content with
  | none => (st, none)
  | some raw =>
      if raw.isEmpty then (st, none)
      else
        let cleaned := cleanForMode p fmt raw
        if cleaned.isEmpty then (st, none)
        else if st.seen.contains cleaned then (st, none)
        else
          let item : Candidate :=
            { content := cleaned, extractor := extractor,
              qualityScore := score cleaned,
              charLen := (pyStrip cleaned).length, degraded := false }
          ({ candidates := st.candidates ++ [item], seen := cleaned :: st.seen },
           some item)

/-- `_is_high_quality_candidate`. -/
def isHighQuality (c : Candidate) (minChars minQuality : Nat) : Bool :=
  minChars ≤ c.charLen && minQuality ≤ c.qualityScore

/-- `_should_early_stop`. -/
def shouldEarlyStop (tuning : Tuning) (qualityFirst : Bool) (minChars : Nat) :
    Option Candidate → Bool
  | none => false
  | some item =>
      tuning.earlyStopEnabled && qualityFirst &&
        isHighQuality item (max minChars tuning.earlyStopChars) tuning.earlyStopQuality

/-- The plan loop shared by `_run_adapter_candidates` and
`_run_core_candidates`: feed each plan result to `_add_candidate` and
return early when `_should_early_stop` fires. -/
def runPlans (p : String → Bool) (fmt : String) (score : String → Nat)
    (tuning : Tuning) (qualityFirst : Bool) (minChars : Nat) :
    ExtState → List (String × Option String) → ExtState × Option Candidate
  | st, [] => (st, none)
  | st, (tag, content) :: rest =>
      let r := addCandidate p fmt score st content tag
      if shouldEarlyStop tuning qualityFirst minChars r.2 then (r.1, r.2)
      else runPlans p fmt score tuning qualityFirst minChars r.1 rest

/-- `_extractor_bonus`. -/
def extractorBonus (tuning : Tuning) (extractor : String) : Nat :=
  if pyStartsWith extractor "adapter:" then tuning.bonusAdapter
  else if pyStartsWith extractor "trafilatura:precision" then tuning.bonusPrecision
  else if pyStartsWith extractor "trafilatura:recall" then tuning.bonusRecall
  else if pyStartsWith extractor "trafilatura:fast" then tuning.bonusFast
  else if pyStartsWith extractor "trafilatura:baseline" then tuning.bonusBaseline
  else 0

/-- `_rank_key`. -/
def rankKey (tuning : Tuning) (c : Candidate) : Nat × Nat × Nat :=
  (c.qualityScore + extractorBonus tuning c.extractor, c.qualityScore, c.charLen)

/-- Lexicographic ≥ on rank keys. -/
def keyGe (a b : Nat × Nat × Nat) : Bool :=
  if a.1 ≠ b.1 then b.1 < a.1
  else if a.2.1 ≠ b.2.1 then b.2.1 < a.2.1
  else b.2.2 ≤ a.2.2

def insertRanked (tuning : Tuning) (c : Candidate) :
    List Candidate → List Candidate
  | [] => [c]
  | y :: t =>
      if keyGe (rankKey tuning y) (rankKey tuning c) then y :: insertRanked tuning c t
      else c :: y :: t

/-- `sorted(candidates, key=_rank_key, reverse=True)` (stable descending). -/
def sortRanked (tuning : Tuning) (l : List Candidate) : List Candidate :=
  l.foldl (fun acc c => insertRanked tuning c acc) []

/-- The empty terminal record of `_extract_best_content`. -/
def noneRecord : Candidate :=
  { content := "", extractor := "none", qualityScore := 0, charLen := 0,
    degraded := true }

def findQualified (minChars minQ : Nat) : List Candidate → Option Candidate
  | [] => none
  | c :: t => if isHighQuality c minChars minQ then some c else findQualified minChars minQ t

/-- The candidate list accumulated by one `_extract_best_content` run
(final state of the plan loop, also when it early-stops). -/
def extractBestCandidates (p : String → Bool) (score : String → Nat)
    (strategy fmt : String) (minChars : Nat)
    (raws : List (String × Option String)) : List Candidate :=
  let tuning := internalTuning strategy
  (runPlans p fmt score tuning (strategy = "quality") minChars ⟨[], []⟩ raws).1.candidates

/-- `_extract_best_content` from `extraction.py` (selection part). -/
def extractBestContent (p : String → Bool) (score : String → Nat)
    (strategy fmt : String) (minChars : Nat)
    (raws : List (String × Option String)) (degradedRaw : Option String) :
    Candidate :=
  let tuning := internalTuning strategy
  let qualityFirst := strategy = "quality"
  let speedFirst := strategy = "speed"
  let run := runPlans p fmt score tuning qualityFirst minChars ⟨[], []⟩ raws
  match run.2 with
  | some item => item
  | none =>
      let ranked := sortRanked tuning run.1.candidates
      let adapters := ranked.filter (fun c => pyStartsWith c.extractor "adapter:")
      match findQualified minChars tuning.adapterMinQuality adapters with
      | some c => c
      | none =>
          match findQualified minChars tuning.generalMinQuality ranked with
          | some c => c
          | none =>
              if speedFirst && !ranked.isEmpty then ranked.headD noneRecord
              else
                match degradedRaw with
                | some d =>
                    if d.isEmpty then ranked.headD noneRecord
                    else
                      let cleaned := cleanForMode p fmt d
                      { content := cleaned, extractor := "meta:degraded",
                        qualityScore := score cleaned,
                        charLen := (pyStrip cleaned).length, degraded := true }
                | none => ranked.headD noneRecord

/-! ## `tools/fetch_search_core.py`: error classification and retries

`_classify_curl_exception` parses a curl-style code out of the exception
text with `re.search(r"curl:\s*\((\d+)\)")` and tests the retry hints by
substring.  The regex is modelled directly: the leftmost position where
the literal `curl:` is followed by optional whitespace, `(`, one or more
ASCII digits, and `)` (the regex `\d` also accepts non-ASCII digits,
which no curl message contains). -/

def curlRetryableCodes : List Nat := [18, 23, 28]

def curlRetryableHints : List String :=
  ["Failed reading the chunked-encoded stream", "Operation timed out",
   "transfer closed with"]

def digitsToNat (ds : List Char) : Nat :=
  ds.foldl (fun n c => n * 10 + (c.toNat - 48)) 0

/-- Match `\s*\((\d+)\)` at the head of `l`; the captured code on success. -/
def parseCodeAt (l : List Char) : Option Nat :=
  match l.dropWhile pyIsSpace with
  | '(' :: r2 =>
      let ds := r2.takeWhile Char.isDigit
      if ds.isEmpty then none
      else
        match r2.dropWhile Char.isDigit with
        | ')' :: _ => some (digitsToNat ds)
        | _ => none
  | _ => none

/-- `re.search(r"curl:\s*\((\d+)\)", message)`: leftmost match wins. -/
def findCurlCode : List Char → Option Nat
  | [] => none
  | c :: t =>
      if ['c', 'u', 'r', 'l', ':'].isPrefixOf (c :: t) then
        match parseCodeAt ((c :: t).drop 5) with
        | some n => some n
        | none => findCurlCode t
      else findCurlCode t

/-- `_classify_curl_exception` (code, retryable). -/
def classifyCurlException (message : String) : Option Nat × Bool :=
  let code := findCurlCode message.toList
  let retryable :=
    (match code with
     | some c => curlRetryableCodes.contains c
     | none => false) ||
    curlRetryableHints.any (fun hint => strHasSub message hint)
  (code, retryable)

/-- Observable trace of one `_curl_get_with_retries` call.  An attempt's
outcome is external (network): `outcomes i = none` means attempt `i`
(1-based) returns a good response, `some msg` means it raises with text
`msg` (`raise_for_status` included).  `result = .ok i` is a return from
attempt `i`; `.error msg` is the exception surfaced to the caller.
`timeouts` lists the effective timeout of each attempt in seconds and
`sleeps` the back-off sleeps in tenths of a second (`time.sleep(0.3 *
attempt)` before attempt `attempt + 1`). -/
structure RetryTrace where
  attemptsMade : Nat
  result : Except String Nat
  timeouts : List Nat
  sleeps : List Nat

/-- `max(effective_timeout_s * 2, effective_timeout_s + 10)`. -/
def nextTimeout (t : Nat) : Nat := max (t * 2) (t + 10)

def retryGo (outcomes : Nat → Option String) (maxAttempts : Nat) :
    Nat → Nat → Nat → RetryTrace
  | 0, _, _ => { attemptsMade := 0, result := .error "", timeouts := [], sleeps := [] }
  | fuel + 1, attempt, t =>
      match outcomes attempt with
      | none => { attemptsMade := 1, result := .ok attempt, timeouts := [t], sleeps := [] }
      | some msg =>
          if (classifyCurlException msg).2 = true ∧ attempt < maxAttempts then
            let sub := retryGo outcomes maxAttempts fuel (attempt + 1) (nextTimeout t)
            { attemptsMade := sub.attemptsMade + 1, result := sub.result,
              timeouts := t :: sub.timeouts, sleeps := 3 * attempt :: sub.sleeps }
          else { attemptsMade := 1, result := .error msg, timeouts := [t], sleeps := [] }

/-- `_curl_get_with_retries(url, timeout_s=t, retries=retries)`. -/
def curlGetWithRetries (outcomes : Nat → Option String) (retries t : Nat) :
    RetryTrace :=
  retryGo outcomes (max 1 retries) (max 1 retries) 1 t

/-! ## `_search_duckduckgo_core`

The HTML fetch and BeautifulSoup selection are external; `items` lists, in
document order, each `.results .result` element as `none` when it lacks an
`a.result__a[href]` link and otherwise `(href, link text, description)`.
`fetchOutcome` is the outcome of the retried GET (and of everything else
inside the worker function): the enclosing `try/except Exception` turns
any failure into `[]`. -/

structure SearchRec where
  title : String
  url : String
  description : String

/-- `_decode_ddg_url` from `_search_duckduckgo_core`. -/
def decodeDdgUrl (href : String) : String :=
  if href.isEmpty then ""
  else
    let href := if pyStartsWith href "//" then "https:" ++ href else href
    let href := if pyStartsWith href "/" then "https://duckduckgo.com" ++ href else href
    if !pyStartsWith href "http" then ""
    else
      match urlparsePy href with
      | .error _ => href
      | .ok p =>
          if pyEndsWith p.netloc "duckduckgo.com" && pyStartsWith p.path "/l/" then
            match dictGet (parseQsl p.query) "uddg" with
            | some uddg => if uddg.isEmpty then href else uddg
            | none => href
          else href

/-- The result loop of `_search_duckduckgo_core` (`len` is the number of
results collected so far; `if max_results and len(results) >=
max_results: break`). -/
def ddgCollectGo (maxResults : Nat) :
    Nat → List (Option (String × String × String)) → List SearchRec
  | _, [] => []
  | len, none :: rest => ddgCollectGo maxResults len rest
  | len, some (href, titleText, desc) :: rest =>
      let url := decodeDdgUrl href
      if !pyStartsWith url "http" then ddgCollectGo maxResults len rest
      else
        let r : SearchRec :=
          { title := if titleText.isEmpty then "No Title" else titleText,
            url := url, description := desc }
        if maxResults ≠ 0 && maxResults ≤ len + 1 then [r]
        else r :: ddgCollectGo maxResults (len + 1) rest

/-- `_search_duckduckgo_core`: total at its interface — the enclosing
`try/except Exception` returns `[]` on any failure. -/
def searchDuckduckgoCore
    (fetchOutcome : Except String (List (Option (String × String × String))))
    (maxResults : Nat) : List SearchRec :=
  match fetchOutcome with
  | .error _ => []
  | .ok items => ddgCollectGo maxResults 0 items

/-! ## `tools/search.py`: `web_search` orchestration

`_search_brave_core` and the AI bridge are external tasks; their outcomes
are inputs.  The merge, dedup, per-domain cap and result assembly are
translated from the source. -/

structure LinkRec where
  title : String
  url : String

/-- The dedup walk over `merged_links` (first-seen by normalized key). -/
def uniqueLinksGo (seen : List String) : List LinkRec → List LinkRec
  | [] => []
  | link :: rest =>
      let url := unwrapRedirectUrl link.url
      if url.isEmpty || !pyStartsWith url "http" then uniqueLinksGo seen rest
      else
        let n := normalizeUrlForDedup url
        let dedupKey := if n.isEmpty then url else n
        if seen.contains dedupKey then uniqueLinksGo seen rest
        else { title := link.title, url := url } :: uniqueLinksGo (dedupKey :: seen) rest

def countOf (counts : List (String × Nat)) (h : String) : Nat :=
  match counts.find? (fun p => p.1 = h) with
  | some p => p.2
  | none => 0

def bumpCount : List (String × Nat) → String → List (String × Nat)
  | [], h => [(h, 1)]
  | (k, v) :: t, h => if k = h then (k, v + 1) :: t else (k, v) :: bumpCount t h

/-- The per-domain cap and result-limit loop over `unique_links`
(`len` is `len(limited_links)` so far). -/
def limitLinksGo (maxPerDomain limit : Nat) :
    List (String × Nat) → Nat → List LinkRec → List LinkRec
  | _, _, [] => []
  | counts, len, link :: rest =>
      let host := if link.url.isEmpty then "" else getHostname link.url
      if 0 < maxPerDomain && !host.isEmpty && maxPerDomain ≤ countOf counts host then
        limitLinksGo maxPerDomain limit counts len rest
      else
        let counts := if host.isEmpty then counts else bumpCount counts host
        if limit ≤ len + 1 then [link]
        else link :: limitLinksGo maxPerDomain limit counts (len + 1) rest

/-- The cap clamping in `web_search`: negative caps become 0, and a site
query disables the cap.  `limit` is `cfg.search_result_limit` (which the
config parser keeps at minimum 1). -/
def webSearchLimit (isSite : Bool) (searchMaxPerDomain : Int) (limit : Nat)
    (uniqueLinks : List LinkRec) : List LinkRec :=
  let cap : Nat :=
    if isSite then 0
    else if searchMaxPerDomain < 0 then 0 else searchMaxPerDomain.toNat
  limitLinksGo cap limit [] 0 uniqueLinks

structure BrowserDiagRec where
  backend : String
  fallbackUsed : Bool
  braveResults : Nat
  ddgResults : Nat
  braveError : Option String
  browserError : Option String

/-- `_browser_search_async`: try Brave (errors recorded, not raised);
fall back to DuckDuckGo when Brave is empty or failed.  `ddgResult` is
the result of `_search_duckduckgo_core`, which is total. -/
def browserSearchAsync (braveOutcome : Except String (List LinkRec))
    (ddgResult : List LinkRec) : List LinkRec × BrowserDiagRec :=
  let base : BrowserDiagRec :=
    { backend := "none", fallbackUsed := false, braveResults := 0,
      ddgResults := 0, braveError := none, browserError := none }
  let results := match braveOutcome with | .ok r => r | .error _ => []
  let braveError := match braveOutcome with | .ok _ => none | .error e => some e
  let d := { base with braveError := braveError, braveResults := results.length }
  if !results.isEmpty then (results, { d with backend := "brave" })
  else
    let d := { d with fallbackUsed := true, ddgResults := ddgResult.length }
    (ddgResult, if ddgResult.isEmpty then d else { d with backend := "ddg" })

/-- The value of the AI task (`_ai_search_async` returns, in order,
browse-page priority links, remaining parsed links, the cleaned summary,
and its error string). -/
structure AiOk where
  priorityLinks : List LinkRec
  otherLinks : List LinkRec
  summary : String
  aiErr : String

structure WebSearchOut where
  success : Bool
  query : String
  links : List LinkRec
  aiSummary : String
  aiError : String
  diagBackend : String
  diagBrowser : BrowserDiagRec
  diagIsSiteQuery : Bool
  diagLlmEnabled : Bool

/-- `web_search` after the two tasks complete.  `aiOutcome`/
`browserOutcome` model the task results delivered by `asyncio.gather(...,
return_exceptions=True)` (`.error` is a task that raised).  When
`use_ai` is false the source awaits the browser task directly, so a
raising browser task would propagate — hence the `Except` result.  The
browser task itself is total (`browserSearchAsync`). -/
def webSearchModel (query : String) (isSite useAi : Bool)
    (aiOutcome : Except String AiOk)
    (browserOutcome : Except String (List LinkRec × BrowserDiagRec))
    (limit : Nat) (cap : Int) : Except String WebSearchOut :=
  let initDiag : BrowserDiagRec :=
    { backend := "none", fallbackUsed := false, braveResults := 0,
      ddgResults := 0, braveError := none, browserError := none }
  let aiPart :=
    if useAi then
      match aiOutcome with
      | .ok r => (r.priorityLinks, r.otherLinks, r.summary, r.aiErr)
      | .error e => ([], [], "", e)
    else ([], [], "", "")
  let browserPart : Except String (List LinkRec × BrowserDiagRec) :=
    if useAi then
      match browserOutcome with
      | .ok r => .ok r
      | .error e => .ok ([], { initDiag with browserError := some e })
    else browserOutcome
  match browserPart with
  | .error e => .error e
  | .ok (browserLinks, browserDiag) =>
      let merged :=
        if isSite then aiPart.1 ++ browserLinks ++ aiPart.2.1
        else aiPart.1 ++ aiPart.2.1 ++ browserLinks
      let uniq := uniqueLinksGo [] merged
      let limited := webSearchLimit isSite cap limit uniq
      .ok { success := true, query := query, links := limited,
            aiSummary := aiPart.2.2.1, aiError := aiPart.2.2.2,
            diagBackend := browserDiag.backend, diagBrowser := browserDiag,
            diagIsSiteQuery := isSite, diagLlmEnabled := useAi }

/-- The sequence of effective timeouts: `iterTimeout t i` is the timeout
used by attempt `i + 1`. -/
def iterTimeout (t : Nat) : Nat → Nat
  | 0 => t
  | n + 1 => nextTimeout (iterTimeout t n)

/-- The `_add_candidate` invariant: recorded candidates have pairwise
distinct cleaned contents, every one registered in `seen_cleaned`. -/
def extInv (st : ExtState) : Prop :=
  st.candidates.Pairwise (fun a b => a.content ≠ b.content) ∧
  ∀ c ∈ st.candidates, st.seen.contains c.content = true

/-- The query component of a parsed URL (`""` when parsing fails). -/
def queryOf (u : String) : String :=
  match urlparsePy u with
  | .ok p => p.query
  | .error _ => ""

/-- The sortedness produced by Python `sorted`: each adjacent pair is in
non-decreasing tuple order. -/
def PairsSorted (l : List (String × String)) : Prop :=
  List.Chain' (fun a b => pairLt b a = false) l

/-! ## Theorems -/

/-! ### C1: `limit_content_length` length cap -/

theorem string_mk_length (l : List Char) : (String.mk l).length = l.length := rfl

/-- C1 (counterexample).  With `max_token_limit = 1` and the five-character
input `"aaaaa"`, `limit_content_length` estimates `5 // 4 = 1` token, does
not truncate, and returns the whole input: the first component is longer
than `max_token_limit * 4` and the second is `false` although the input is
longer than that cap — both halves of C1 fail as stated. -/
theorem limit_content_length_cap_counterexample :
    ¬ (((limitContentLength 1 "aaaaa").1.length ≤ 1 * 4) ∧
       (((limitContentLength 1 "aaaaa").2 = true) ↔ 1 * 4 < "aaaaa".length)) := by
  decide

/-- C1 (amended): for every limit `L` and string `s`,
`limit_content_length` returns a first component of length at most
`L * 4 + 3`, and truncates (second component `true`) exactly when
`len(s) // 4 > L`, i.e. when `len(s) ≥ L * 4 + 4`; when it truncates, the
first component is exactly the first `L * 4` characters of the input. -/
theorem limit_content_length_amended (L : Nat) (s : String) :
    (limitContentLength L s).1.length ≤ L * 4 + 3 ∧
    ((limitContentLength L s).2 = true ↔ L * 4 + 4 ≤ s.length) ∧
    ((limitContentLength L s).2 = true →
      (limitContentLength L s).1 = ⟨s.toList.take (L * 4)⟩) := by
  have key : (L < s.length / 4) ↔ L * 4 + 4 ≤ s.length := by
    rw [Nat.lt_iff_add_one_le, Nat.le_div_iff_mul_le (by norm_num : 0 < 4)]
    omega
  have hlen : s.toList.length = s.length := rfl
  unfold limitContentLength
  by_cases h : L < s.length / 4
  · rw [if_pos h]
    refine ⟨?_, ?_, ?_⟩
    · show (String.mk (s.toList.take (L * 4))).length ≤ L * 4 + 3
      rw [string_mk_length, List.length_take]
      omega
    · simpa using key.mp h
    · intro _
      rfl
  · rw [if_neg h]
    have hup : s.length < (L + 1) * 4 :=
      (Nat.div_lt_iff_lt_mul (by norm_num : 0 < 4)).mp (Nat.lt_succ_of_le (Nat.not_lt.mp h))
    refine ⟨?_, ?_, ?_⟩
    · show s.length ≤ L * 4 + 3
      omega
    · show (false = true) ↔ _
      constructor
      · intro hfalse; exact absurd hfalse (by simp)
      · intro hlen4; omega
    · intro hfalse
      exact absurd hfalse (by simp)

/-- C1 (witness): the amended statement applied at limit 1 and a
nine-character input, which truncates to exactly the first four
characters. -/
theorem limit_content_length_amended_witness :
    (limitContentLength 1 "aaaaaaaab").2 = true ∧
    (limitContentLength 1 "aaaaaaaab").1 = ⟨"aaaaaaaab".toList.take (1 * 4)⟩ :=
  ⟨by decide, (limit_content_length_amended 1 "aaaaaaaab").2.2 (by decide)⟩

/-! ### C3: HTTP retry policy -/

theorem iterTimeout_shift (t : Nat) : ∀ n, iterTimeout (nextTimeout t) n = iterTimeout t (n + 1)
  | 0 => rfl
  | n + 1 => by simp only [iterTimeout, iterTimeout_shift t n]

theorem retryGo_succ (outcomes : Nat → Option String) (M f a t0 : Nat) :
    retryGo outcomes M (f + 1) a t0 =
      match outcomes a with
      | none => { attemptsMade := 1, result := .ok a, timeouts := [t0], sleeps := [] }
      | some msg =>
          if (classifyCurlException msg).2 = true ∧ a < M then
            let sub := retryGo outcomes M f (a + 1) (nextTimeout t0)
            { attemptsMade := sub.attemptsMade + 1, result := sub.result,
              timeouts := t0 :: sub.timeouts, sleeps := 3 * a :: sub.sleeps }
          else { attemptsMade := 1, result := .error msg, timeouts := [t0], sleeps := [] } := by
  rfl

theorem retryGo_succ_none (outcomes : Nat → Option String) (M f a t0 : Nat)
    (h : outcomes a = none) :
    retryGo outcomes M (f + 1) a t0 =
      { attemptsMade := 1, result := .ok a, timeouts := [t0], sleeps := [] } := by
  rw [retryGo_succ, h]

theorem retryGo_succ_retry (outcomes : Nat → Option String) (M f a t0 : Nat) (msg : String)
    (h : outcomes a = some msg) (hc : (classifyCurlException msg).2 = true ∧ a < M) :
    retryGo outcomes M (f + 1) a t0 =
      { attemptsMade := (retryGo outcomes M f (a + 1) (nextTimeout t0)).attemptsMade + 1,
        result := (retryGo outcomes M f (a + 1) (nextTimeout t0)).result,
        timeouts := t0 :: (retryGo outcomes M f (a + 1) (nextTimeout t0)).timeouts,
        sleeps := 3 * a :: (retryGo outcomes M f (a + 1) (nextTimeout t0)).sleeps } := by
  rw [retryGo_succ, h]
  exact if_pos hc

theorem retryGo_succ_stop (outcomes : Nat → Option String) (M f a t0 : Nat) (msg : String)
    (h : outcomes a = some msg) (hc : ¬ ((classifyCurlException msg).2 = true ∧ a < M)) :
    retryGo outcomes M (f + 1) a t0 =
      { attemptsMade := 1, result := .error msg, timeouts := [t0], sleeps := [] } := by
  rw [retryGo_succ, h]
  exact if_neg hc

/-- The C3 retry-policy properties over `retryGo` with explicit fuel:
called with `attempt + fuel = maxAttempts + 1` and `1 ≤ fuel`, the trace
makes between 1 and `fuel` attempts; every non-final attempt failed with a
retryable message; a surfaced error is the final attempt's message and is
non-retryable or occurred at the attempt budget; a success is the final
attempt's; the timeouts follow `nextTimeout`; the sleep before attempt
`k + 1` is `3 · k` tenths of a second. -/
theorem retryGo_spec (outcomes : Nat → Option String) (M : Nat) :
    ∀ (fuel a t0 : Nat), 1 ≤ fuel → a + fuel = M + 1 →
    (1 ≤ (retryGo outcomes M fuel a t0).attemptsMade ∧
      (retryGo outcomes M fuel a t0).attemptsMade ≤ fuel) ∧
    (∀ j, j + 1 < (retryGo outcomes M fuel a t0).attemptsMade →
      ∃ msg, outcomes (a + j) = some msg ∧ (classifyCurlException msg).2 = true) ∧
    (∀ msg, (retryGo outcomes M fuel a t0).result = .error msg →
      outcomes (a + (retryGo outcomes M fuel a t0).attemptsMade - 1) = some msg ∧
      ((classifyCurlException msg).2 = false ∨
        M ≤ a + (retryGo outcomes M fuel a t0).attemptsMade - 1)) ∧
    (∀ n, (retryGo outcomes M fuel a t0).result = .ok n →
      n = a + (retryGo outcomes M fuel a t0).attemptsMade - 1 ∧ outcomes n = none) ∧
    (retryGo outcomes M fuel a t0).timeouts =
      (List.range (retryGo outcomes M fuel a t0).attemptsMade).map (iterTimeout t0) ∧
    (retryGo outcomes M fuel a t0).sleeps =
      (List.range ((retryGo outcomes M fuel a t0).attemptsMade - 1)).map
        (fun i => 3 * (a + i)) := by
  intro fuel
  induction fuel with
  | zero => intro a t0 h; omega
  | succ f ih =>
      intro a t0 _ hinv
      cases houtcome : outcomes a with
      | none =>
          rw [retryGo_succ_none outcomes M f a t0 houtcome]
          dsimp only
          refine ⟨⟨le_refl 1, by omega⟩, ?_, ?_, ?_, ?_, ?_⟩
          · intro j hj
            omega
          · intro msg hmsg
            exact absurd hmsg (by simp)
          · intro n hn
            have hna : a = n := Except.ok.inj hn
            subst hna
            exact ⟨by omega, houtcome⟩
          · rfl
          · rfl
      | some msg =>
          by_cases hretry : (classifyCurlException msg).2 = true ∧ a < M
          · have hf : 1 ≤ f := by omega
            have hsub := ih (a + 1) (nextTimeout t0) hf (by omega)
            obtain ⟨⟨hs1, hs2⟩, hfail, herr, hok, htime, hsleep⟩ := hsub
            rw [retryGo_succ_retry outcomes M f a t0 msg houtcome hretry]
            dsimp only
            refine ⟨⟨by omega, by omega⟩, ?_, ?_, ?_, ?_, ?_⟩
            · intro j hj
              cases j with
              | zero => exact ⟨msg, by simpa using houtcome, hretry.1⟩
              | succ j' =>
                  obtain ⟨m, hm1, hm2⟩ := hfail j' (by omega)
                  refine ⟨m, ?_, hm2⟩
                  have : a + (j' + 1) = a + 1 + j' := by omega
                  rw [this]
                  exact hm1
            · intro m hm
              obtain ⟨he1, he2⟩ := herr m hm
              constructor
              · have harith : a + ((retryGo outcomes M f (a + 1) (nextTimeout t0)).attemptsMade + 1) - 1 =
                    a + 1 + (retryGo outcomes M f (a + 1) (nextTimeout t0)).attemptsMade - 1 := by
                  omega
                rw [harith]
                exact he1
              · rcases he2 with h | h
                · exact Or.inl h
                · exact Or.inr (by omega)
            · intro n hn
              obtain ⟨ho1, ho2⟩ := hok n hn
              exact ⟨by omega, ho2⟩
            · rw [htime, List.range_succ_eq_map]
              simp only [List.map_cons, List.map_map]
              refine congrArg₂ _ rfl ?_
              apply List.map_congr_left
              intro i _
              simp only [Function.comp_apply, iterTimeout_shift]
            · rw [hsleep]
              obtain ⟨k, hk⟩ : ∃ k, (retryGo outcomes M f (a + 1) (nextTimeout t0)).attemptsMade = k + 1 :=
                ⟨_, (Nat.succ_pred_eq_of_pos hs1).symm⟩
              rw [hk]
              simp only [Nat.add_sub_cancel, List.range_succ_eq_map, List.map_cons,
                List.map_map]
              refine congrArg₂ _ (by omega) ?_
              apply List.map_congr_left
              intro i _
              simp only [Function.comp_apply]
              omega
          · rw [retryGo_succ_stop outcomes M f a t0 msg houtcome hretry]
            dsimp only
            refine ⟨⟨le_refl 1, by omega⟩, ?_, ?_, ?_, ?_, ?_⟩
            · intro j hj
              omega
            · intro m hm
              have hme : msg = m := Except.error.inj hm
              subst hme
              refine ⟨by simpa using houtcome, ?_⟩
              by_cases hr : (classifyCurlException msg).2 = true
              · have hnl : ¬ a < M := fun hlt => hretry ⟨hr, hlt⟩
                exact Or.inr (by omega)
              · exact Or.inl (by simpa using hr)
            · intro n hn
              exact absurd hn (by simp)
            · rfl
            · rfl

/-- C3: `_curl_get_with_retries` makes between 1 and `max(1, retries)`
attempts; every attempt that was followed by a retry failed with a
retryable message (parsed curl code in {18, 23, 28} or a message
containing one of the three retry hints); a surfaced error is the final
attempt's message and is either non-retryable — surfacing immediately
after the attempt that produced it — or happened at the attempt budget; a
returned response comes from the final attempt; attempt `i + 1` runs with
effective timeout `iterTimeout t i`, so before each retry the timeout
becomes `max(2·t, t + 10)`; and the client sleeps `0.3 · k` seconds
(recorded in tenths) after failing attempt `k`. -/
theorem curl_get_with_retries_spec (outcomes : Nat → Option String) (retries t : Nat) :
    (1 ≤ (curlGetWithRetries outcomes retries t).attemptsMade ∧
      (curlGetWithRetries outcomes retries t).attemptsMade ≤ max 1 retries) ∧
    (∀ i, 1 ≤ i → i < (curlGetWithRetries outcomes retries t).attemptsMade →
      ∃ msg, outcomes i = some msg ∧ (classifyCurlException msg).2 = true) ∧
    (∀ msg, (curlGetWithRetries outcomes retries t).result = .error msg →
      outcomes (curlGetWithRetries outcomes retries t).attemptsMade = some msg ∧
      ((classifyCurlException msg).2 = false ∨
        (curlGetWithRetries outcomes retries t).attemptsMade = max 1 retries)) ∧
    (∀ n, (curlGetWithRetries outcomes retries t).result = .ok n →
      n = (curlGetWithRetries outcomes retries t).attemptsMade ∧ outcomes n = none) ∧
    (curlGetWithRetries outcomes retries t).timeouts =
      (List.range (curlGetWithRetries outcomes retries t).attemptsMade).map (iterTimeout t) ∧
    (curlGetWithRetries outcomes retries t).sleeps =
      (List.range ((curlGetWithRetries outcomes retries t).attemptsMade - 1)).map
        (fun i => 3 * (i + 1)) := by
  have h := retryGo_spec outcomes (max 1 retries) (max 1 retries) 1 t
    (le_max_left 1 retries) (by omega)
  obtain ⟨⟨h1, h2⟩, hfail, herr, hok, htime, hsleep⟩ := h
  unfold curlGetWithRetries
  refine ⟨⟨h1, h2⟩, ?_, ?_, ?_, htime, ?_⟩
  · intro i hi1 hi2
    obtain ⟨m, hm1, hm2⟩ := hfail (i - 1) (by omega)
    refine ⟨m, ?_, hm2⟩
    have : 1 + (i - 1) = i := by omega
    rw [this] at hm1
    exact hm1
  · intro msg hmsg
    obtain ⟨he1, he2⟩ := herr msg hmsg
    constructor
    · have harith : 1 + (retryGo outcomes (max 1 retries) (max 1 retries) 1 t).attemptsMade - 1 =
        (retryGo outcomes (max 1 retries) (max 1 retries) 1 t).attemptsMade := by omega
      rw [harith] at he1
      exact he1
    · rcases he2 with h | h
      · exact Or.inl h
      · exact Or.inr (by omega)
  · intro n hn
    obtain ⟨ho1, ho2⟩ := hok n hn
    exact ⟨by omega, ho2⟩
  · rw [hsleep]
    apply List.map_congr_left
    intro i _
    omega

/-- C3 (witness): the spec applied at the concrete scenario of the
repository's retry test — attempt 1 fails with a chunked-stream curl
error (code 23, retryable), attempt 2 succeeds, `retries = 2`,
timeout 15 s. -/
theorem curl_get_with_retries_spec_witness :
    1 ≤ (curlGetWithRetries
      (fun i => if i = 1 then some "curl: (23) Failed reading the chunked-encoded stream." else none)
      2 15).attemptsMade ∧
    (curlGetWithRetries
      (fun i => if i = 1 then some "curl: (23) Failed reading the chunked-encoded stream." else none)
      2 15).attemptsMade ≤ max 1 2 :=
  (curl_get_with_retries_spec
    (fun i => if i = 1 then some "curl: (23) Failed reading the chunked-encoded stream." else none)
    2 15).1

/-! ### C7: extractor candidate uniqueness -/

theorem addCandidate_extInv (p : String → Bool) (fmt : String) (score : String → Nat)
    (st : ExtState) (content : Option String) (tag : String) (h : extInv st) :
    extInv (addCandidate p fmt score st content tag).1 := by
  unfold addCandidate
  cases content with
  | none => exact h
  | some raw =>
      dsimp only
      split_ifs with h1 h2 h3
      · exact h
      · exact h
      · exact h
      · constructor
        · rw [List.pairwise_append]
          refine ⟨h.1, List.pairwise_singleton _ _, ?_⟩
          intro a ha b hb
          have hb' := List.mem_singleton.mp hb
          subst hb'
          dsimp only
          intro heq
          apply h3
          have := h.2 a ha
          rw [heq] at this
          exact this
        · intro c hc
          rw [List.mem_append] at hc
          rcases hc with hc | hc
          · have := h.2 c hc
            simp only [List.contains_cons, Bool.or_eq_true]
            exact Or.inr this
          · have hc' := List.mem_singleton.mp hc
            subst hc'
            simp

theorem runPlans_extInv (p : String → Bool) (fmt : String) (score : String → Nat)
    (tuning : Tuning) (qualityFirst : Bool) (minChars : Nat) :
    ∀ (raws : List (String × Option String)) (st : ExtState), extInv st →
      extInv (runPlans p fmt score tuning qualityFirst minChars st raws).1 := by
  intro raws
  induction raws with
  | nil => intro st h; exact h
  | cons r rest ih =>
      intro st h
      obtain ⟨tag, content⟩ := r
      have hstep := addCandidate_extInv p fmt score st content tag h
      unfold runPlans
      dsimp only
      split_ifs with hstop
      · exact hstep
      · exact ih _ hstep

/-- C7: within a single `_extract_best_content` invocation, no two
recorded extraction candidates have equal cleaned content — a raw
extraction whose cleaned form duplicates an earlier candidate's cleaned
content is discarded by `_add_candidate` before being scored or
recorded. -/
theorem extract_best_candidates_unique (p : String → Bool) (score : String → Nat)
    (strategy fmt : String) (minChars : Nat)
    (raws : List (String × Option String)) :
    (extractBestCandidates p score strategy fmt minChars raws).Pairwise
      (fun a b => a.content ≠ b.content) := by
  have h := runPlans_extInv p fmt score (internalTuning strategy)
    (strategy = "quality") minChars raws ⟨[], []⟩
    ⟨List.Pairwise.nil, by intro c hc; exact absurd hc (List.not_mem_nil c)⟩
  exact h.1

/-! ### C2: orchestrator result limit and per-domain cap -/

theorem getHostname_empty : getHostname "" = "" := by decide

theorem countOf_bump_self (counts : List (String × Nat)) (h : String) :
    countOf (bumpCount counts h) h = countOf counts h + 1 := by
  induction counts with
  | nil => simp [bumpCount, countOf, List.find?]
  | cons kv t ih =>
      obtain ⟨k, v⟩ := kv
      by_cases hk : k = h
      · subst hk
        simp [bumpCount, countOf, List.find?]
      · simp only [bumpCount, if_neg hk]
        simp only [countOf, List.find?] at ih ⊢
        rw [show (decide (k = h)) = false from by simpa using hk]
        simpa using ih

theorem countOf_bump_other (counts : List (String × Nat)) (h h' : String)
    (hne : h ≠ h') : countOf (bumpCount counts h) h' = countOf counts h' := by
  induction counts with
  | nil =>
      simp only [bumpCount, countOf, List.find?]
      rw [show (decide (h = h')) = false from by simpa using hne]
  | cons kv t ih =>
      obtain ⟨k, v⟩ := kv
      by_cases hk : k = h
      · subst hk
        simp only [bumpCount, if_pos rfl, countOf, List.find?]
        rw [show (decide (k = h')) = false from by simpa using hne]
      · simp only [bumpCount, if_neg hk]
        simp only [countOf, List.find?] at ih ⊢
        cases hd : decide (k = h') with
        | true => rfl
        | false => simpa [hd] using ih

theorem limitLinksGo_length (cap limit : Nat) :
    ∀ (l : List LinkRec) (counts : List (String × Nat)) (len : Nat), len < limit →
      (limitLinksGo cap limit counts len l).length ≤ limit - len := by
  intro l
  induction l with
  | nil => intro counts len _; simp [limitLinksGo]
  | cons link rest ih =>
      intro counts len hlen
      unfold limitLinksGo
      dsimp only
      set host := if link.url.isEmpty then "" else getHostname link.url with hhost
      set counts2 := if host.isEmpty then counts else bumpCount counts host with hcounts2
      split_ifs with hskip hbreak
      · exact ih counts len hlen
      · simp only [List.length_cons, List.length_nil]
        omega
      · simp only [List.length_cons]
        have h2 := ih counts2 (len + 1) (by omega)
        omega

/-- The loop host `if link.url.isEmpty then "" else getHostname link.url`
coincides with `getHostname link.url` (the empty URL has no hostname). -/
theorem hostOf_eq (u : String) :
    (if u.isEmpty then "" else getHostname u) = getHostname u := by
  by_cases he : u.isEmpty
  · have hu : u = "" := (String.isEmpty_iff u).mp he
    subst hu
    decide
  · rw [if_neg he]

theorem limitLinksGo_host_count (cap limit : Nat) (h : String) (hne : h ≠ "")
    (hcap : 0 < cap) :
    ∀ (l : List LinkRec) (counts : List (String × Nat)) (len : Nat),
      countOf counts h ≤ cap →
      ((limitLinksGo cap limit counts len l).filter
          (fun x => getHostname x.url = h)).length + countOf counts h ≤ cap := by
  have hie : h.isEmpty = false := by
    cases hb : h.isEmpty
    · rfl
    · exact absurd ((String.isEmpty_iff h).mp hb) hne
  intro l
  induction l with
  | nil => intro counts len hc; simpa [limitLinksGo] using hc
  | cons link rest ih =>
      intro counts len hc
      unfold limitLinksGo
      dsimp only
      rw [hostOf_eq]
      by_cases hpred : getHostname link.url = h
      · rw [hpred]
        rw [if_neg (show ¬(h.isEmpty = true) by simp [hie])]
        by_cases hfull : cap ≤ countOf counts h
        · rw [if_pos (show (decide (0 < cap) && !h.isEmpty &&
              decide (cap ≤ countOf counts h)) = true by simp [hcap, hie, hfull])]
          exact ih counts len hc
        · rw [if_neg (show ¬((decide (0 < cap) && !h.isEmpty &&
              decide (cap ≤ countOf counts h)) = true) by simp [hfull])]
          by_cases hbreak : limit ≤ len + 1
          · rw [if_pos hbreak]
            have hfl : List.filter (fun x => decide (getHostname x.url = h)) [link] =
                [link] := by
              simp [List.filter_cons, hpred]
            rw [hfl]
            simp only [List.length_cons, List.length_nil]
            omega
          · rw [if_neg hbreak]
            have h2 := ih (bumpCount counts h) (len + 1)
              (by rw [countOf_bump_self]; omega)
            rw [countOf_bump_self] at h2
            have hfl : List.filter (fun x => decide (getHostname x.url = h))
                (link :: limitLinksGo cap limit (bumpCount counts h) (len + 1) rest) =
                link :: List.filter (fun x => decide (getHostname x.url = h))
                  (limitLinksGo cap limit (bumpCount counts h) (len + 1) rest) := by
              simp [List.filter_cons, hpred]
            rw [hfl, List.length_cons]
            omega
      · have hfl0 : ∀ ll : List LinkRec,
            List.filter (fun x => decide (getHostname x.url = h)) (link :: ll) =
            List.filter (fun x => decide (getHostname x.url = h)) ll := by
          intro ll
          simp [List.filter_cons, hpred]
        have hfl1 : List.filter (fun x => decide (getHostname x.url = h)) [link] = [] := by
          simp [List.filter_cons, hpred]
        by_cases hgE : (getHostname link.url).isEmpty
        · rw [if_pos hgE]
          rw [if_neg (show ¬((decide (0 < cap) && !(getHostname link.url).isEmpty &&
              decide (cap ≤ countOf counts (getHostname link.url))) = true) by simp [hgE])]
          by_cases hbreak : limit ≤ len + 1
          · rw [if_pos hbreak, hfl1]
            simpa using hc
          · rw [if_neg hbreak, hfl0]
            exact ih counts (len + 1) hc
        · rw [if_neg (show ¬((getHostname link.url).isEmpty = true) by simpa using hgE)]
          by_cases hskip : (decide (0 < cap) && !(getHostname link.url).isEmpty &&
              decide (cap ≤ countOf counts (getHostname link.url))) = true
          · rw [if_pos hskip]
            exact ih counts len hc
          · rw [if_neg hskip]
            by_cases hbreak : limit ≤ len + 1
            · rw [if_pos hbreak, hfl1]
              simpa using hc
            · rw [if_neg hbreak, hfl0]
              have h2 := ih (bumpCount counts (getHostname link.url)) (len + 1)
                (by rw [countOf_bump_other counts (getHostname link.url) h hpred]; exact hc)
              rw [countOf_bump_other counts (getHostname link.url) h hpred] at h2
              exact h2

theorem webSearchModel_ok_links (query : String) (isSite useAi : Bool)
    (aiOutcome : Except String AiOk)
    (browserOutcome : Except String (List LinkRec × BrowserDiagRec))
    (limit : Nat) (cap : Int) (out : WebSearchOut)
    (hout : webSearchModel query isSite useAi aiOutcome browserOutcome limit cap = .ok out) :
    ∃ uniq, out.links = webSearchLimit isSite cap limit uniq := by
  unfold webSearchModel at hout
  dsimp only at hout
  split at hout
  · exact absurd hout (by simp)
  · have h := Except.ok.inj hout
    subst h
    exact ⟨_, rfl⟩

/-- C2: every `web_search` result has at most `search_result_limit` links
(the config parser keeps that limit ≥ 1), and — when the query is not a
site query and `search_max_per_domain > 0` — no hostname occurs among the
returned links more than `search_max_per_domain` times. -/
theorem web_search_result_limits (query : String) (isSite useAi : Bool)
    (aiOutcome : Except String AiOk)
    (browserOutcome : Except String (List LinkRec × BrowserDiagRec))
    (limit : Nat) (cap : Int) (out : WebSearchOut)
    (hlimit : 1 ≤ limit)
    (hout : webSearchModel query isSite useAi aiOutcome browserOutcome limit cap = .ok out) :
    out.links.length ≤ limit ∧
    (isSite = false → 0 < cap → ∀ h : String, h ≠ "" →
      ((out.links.filter (fun x => getHostname x.url = h)).length : Int) ≤ cap) := by
  obtain ⟨uniq, hlinks⟩ := webSearchModel_ok_links query isSite useAi aiOutcome
    browserOutcome limit cap out hout
  rw [hlinks]
  constructor
  · have h := limitLinksGo_length
      (if isSite then 0 else if cap < 0 then 0 else cap.toNat) limit uniq [] 0
      (by omega)
    unfold webSearchLimit
    dsimp only
    omega
  · intro hsite hcap h hne
    unfold webSearchLimit
    dsimp only
    rw [hsite]
    simp only [Bool.false_eq_true, if_false]
    rw [if_neg (by omega : ¬ cap < 0)]
    have h0 : 0 < cap.toNat := by omega
    have hcount := limitLinksGo_host_count cap.toNat limit h hne h0 uniq [] 0
      (by simp [countOf, List.find?])
    simp only [countOf, List.find?] at hcount
    omega

/-- C2 (witness): the bounds applied at a concrete invocation — browser
search found two links on the same host, `search_result_limit = 1`,
`search_max_per_domain = 1`. -/
theorem web_search_result_limits_witness :
    ((webSearchModel "q" false false (.error "e")
        (.ok ([⟨"t", "https://a.com/1"⟩, ⟨"t", "https://a.com/2"⟩],
          ⟨"brave", false, 2, 0, none, none⟩)) 1 1).toOption.getD
      ⟨true, "", [], "", "", "", ⟨"none", false, 0, 0, none, none⟩, false, false⟩).links.length ≤ 1 ∧
    ((((webSearchModel "q" false false (.error "e")
        (.ok ([⟨"t", "https://a.com/1"⟩, ⟨"t", "https://a.com/2"⟩],
          ⟨"brave", false, 2, 0, none, none⟩)) 1 1).toOption.getD
      ⟨true, "", [], "", "", "", ⟨"none", false, 0, 0, none, none⟩, false, false⟩).links.filter
        (fun x => getHostname x.url = "a.com")).length : Int) ≤ 1 := by
  have h := web_search_result_limits "q" false false (.error "e")
    (.ok ([⟨"t", "https://a.com/1"⟩, ⟨"t", "https://a.com/2"⟩],
      ⟨"brave", false, 2, 0, none, none⟩)) 1 1
    ((webSearchModel "q" false false (.error "e")
        (.ok ([⟨"t", "https://a.com/1"⟩, ⟨"t", "https://a.com/2"⟩],
          ⟨"brave", false, 2, 0, none, none⟩)) 1 1).toOption.getD
      ⟨true, "", [], "", "", "", ⟨"none", false, 0, 0, none, none⟩, false, false⟩)
    (by omega) (by rfl)
  exact ⟨h.1, h.2 rfl (by omega) "a.com" (by decide)⟩

/-! ### C9: `web_search` never fails -/

theorem merged_browser_only (isSite : Bool) (bl : List LinkRec) :
    (if isSite then ([] : List LinkRec) ++ bl ++ [] else ([] : List LinkRec) ++ [] ++ bl) =
      bl := by
  cases isSite <;> simp

/-- C9: with the browser task being the total `browserSearchAsync`
composition (Brave errors are caught, DuckDuckGo is total), `web_search`
always returns a result with `success = true`; an AI-task failure is
reported only through `ai_error` while the links are still computed from
the browser results; Brave failing with DuckDuckGo empty is reported in
the diagnostics (`backend = "none"`, `brave_error` set) and still yields
`success = true`. -/
theorem web_search_always_success (query : String) (isSite useAi : Bool)
    (aiOutcome : Except String AiOk) (braveOutcome : Except String (List LinkRec))
    (ddgResult : List LinkRec) (limit : Nat) (cap : Int) :
    ∃ out, webSearchModel query isSite useAi aiOutcome
        (.ok (browserSearchAsync braveOutcome ddgResult)) limit cap = .ok out ∧
      out.success = true ∧
      (∀ e, useAi = true → aiOutcome = .error e →
        out.aiError = e ∧
        out.links = webSearchLimit isSite cap limit
          (uniqueLinksGo [] (browserSearchAsync braveOutcome ddgResult).1)) ∧
      (∀ e, braveOutcome = .error e → ddgResult = [] →
        (browserSearchAsync braveOutcome ddgResult).2.backend = "none" ∧
        (browserSearchAsync braveOutcome ddgResult).2.braveError = some e ∧
        out.diagBrowser = (browserSearchAsync braveOutcome ddgResult).2) := by
  rcases hbr : browserSearchAsync braveOutcome ddgResult with ⟨bl, bd⟩
  cases huse : useAi with
  | false =>
      refine ⟨_, rfl, rfl, ?_, ?_⟩
      · intro e he _
        exact absurd he (by simp)
      · intro e hb hd
        subst hb
        subst hd
        rw [show browserSearchAsync (Except.error e) ([] : List LinkRec) =
            (([] : List LinkRec), ⟨"none", true, 0, 0, some e, none⟩) from rfl] at hbr
        cases hbr
        exact ⟨rfl, rfl, rfl⟩
  | true =>
      cases hai : aiOutcome with
      | ok r =>
          refine ⟨_, rfl, rfl, ?_, ?_⟩
          · intro e _ he
            exact absurd he (by simp)
          · intro e hb hd
            subst hb
            subst hd
            rw [show browserSearchAsync (Except.error e) ([] : List LinkRec) =
                (([] : List LinkRec), ⟨"none", true, 0, 0, some e, none⟩) from rfl] at hbr
            cases hbr
            exact ⟨rfl, rfl, rfl⟩
      | error msg =>
          refine ⟨_, rfl, rfl, ?_, ?_⟩
          · intro e _ he
            have hme : msg = e := Except.error.inj he
            subst hme
            refine ⟨rfl, ?_⟩
            show webSearchLimit isSite cap limit
                (uniqueLinksGo [] (if isSite then ([] : List LinkRec) ++ bl ++ []
                  else ([] : List LinkRec) ++ [] ++ bl)) =
              webSearchLimit isSite cap limit (uniqueLinksGo [] (bl, bd).1)
            rw [merged_browser_only]
          · intro e hb hd
            subst hb
            subst hd
            rw [show browserSearchAsync (Except.error e) ([] : List LinkRec) =
                (([] : List LinkRec), ⟨"none", true, 0, 0, some e, none⟩) from rfl] at hbr
            cases hbr
            exact ⟨rfl, rfl, rfl⟩

/-- C9 (witness): both the AI task and both search engines fail; the
result still reports `success = true`. -/
theorem web_search_always_success_witness :
    ∃ out, webSearchModel "q" false true (.error "boom")
        (.ok (browserSearchAsync (.error "bang") [])) 5 2 = .ok out ∧
      out.success = true := by
  obtain ⟨out, h1, h2, _, _⟩ :=
    web_search_always_success "q" false true (.error "boom") (.error "bang") [] 5 2
  exact ⟨out, h1, h2⟩

/-! ### C10: the DuckDuckGo scraper is total -/

theorem ddgCollectGo_length (maxResults : Nat) :
    ∀ (items : List (Option (String × String × String))) (len : Nat),
      len < maxResults →
      (ddgCollectGo maxResults len items).length ≤ maxResults - len := by
  intro items
  induction items with
  | nil => intro len _; simp [ddgCollectGo]
  | cons item rest ih =>
      intro len hlen
      cases item with
      | none =>
          unfold ddgCollectGo
          exact ih len hlen
      | some v =>
          obtain ⟨href, titleText, desc⟩ := v
          unfold ddgCollectGo
          dsimp only
          by_cases hhttp : (!pyStartsWith (decodeDdgUrl href) "http") = true
          · rw [if_pos hhttp]
            exact ih len hlen
          · rw [if_neg hhttp]
            by_cases hbreak : (maxResults ≠ 0 && maxResults ≤ len + 1) = true
            · rw [if_pos hbreak]
              simp only [List.length_cons, List.length_nil]
              omega
            · rw [if_neg hbreak]
              simp only [List.length_cons]
              have hz : maxResults ≠ 0 := by omega
              have hb2 : ¬ maxResults ≤ len + 1 := by
                intro hle
                exact hbreak (by simp [hz, hle])
              have h2 := ih (len + 1) (by omega)
              omega

/-- C10: `_search_duckduckgo_core` is total at its interface: it always
returns a list; when the retried HTTP GET (`retries = 3`, as the source
passes) or anything else in the worker raises, the enclosing
`try/except Exception` yields `[]`; on success the parsed results are
returned, capped at `max_results` when that cap is positive. -/
theorem search_duckduckgo_core_total (outcomes : Nat → Option String) (t : Nat)
    (items : List (Option (String × String × String))) (maxResults : Nat) :
    (∀ e, (curlGetWithRetries outcomes 3 t).result = .error e →
        searchDuckduckgoCore (.error e) maxResults = []) ∧
    (∀ n, (curlGetWithRetries outcomes 3 t).result = .ok n →
        searchDuckduckgoCore (.ok items) maxResults = ddgCollectGo maxResults 0 items) ∧
    (1 ≤ maxResults → (searchDuckduckgoCore (.ok items) maxResults).length ≤ maxResults) := by
  refine ⟨fun e _ => rfl, fun n _ => rfl, fun hmax => ?_⟩
  have h := ddgCollectGo_length maxResults items 0 (by omega)
  simpa [searchDuckduckgoCore] using h

/-- C10 (witness): the totality spec applied with the HTTP GET failing on
every attempt with a non-retryable error — the scraper returns `[]`. -/
theorem search_duckduckgo_core_total_witness :
    searchDuckduckgoCore (.error "curl: (6) Could not resolve host") 20 = [] := by
  have h := search_duckduckgo_core_total
    (fun _ => some "curl: (6) Could not resolve host") 15 [] 20
  exact h.1 "curl: (6) Could not resolve host" (by rfl)

/-! ### C4: redirect unwrapping -/

theorem armOk_http (t : Option String) (v : String) (h : armOk t = some v) :
    pyStartsWith v "http" = true := by
  cases t with
  | none => exact absurd h (by simp [armOk])
  | some w =>
      have h' : (if (!w.isEmpty && pyStartsWith w "http") = true then some w
          else (none : Option String)) = some v := h
      split_ifs at h' with hc
      have hv : w = v := Option.some.inj h'
      subst hv
      exact ((Bool.and_eq_true _ _).mp hc).2

theorem ite_armOk_http (c : Prop) [Decidable c] (t : Option String) (v : String)
    (h : (if c then armOk t else none) = some v) : pyStartsWith v "http" = true := by
  split at h
  · exact armOk_http t v h
  · exact absurd h (by simp)

theorem firstHttpParam_http (params : List (String × String)) :
    ∀ (ks : List String) (v : String), firstHttpParam params ks = some v →
      pyStartsWith v "http" = true := by
  intro ks
  induction ks with
  | nil => intro v h; exact absurd h (by simp [firstHttpParam])
  | cons k rest ih =>
      intro v h
      unfold firstHttpParam at h
      cases harm : armOk (dictGet params k) with
      | some t =>
          rw [harm] at h
          have ht : t = v := Option.some.inj h
          subst ht
          exact armOk_http _ _ harm
      | none =>
          rw [harm] at h
          exact ih v h

theorem orElseArm_cases (a b : Option String) (P : String → Prop)
    (ha : ∀ v, a = some v → P v) (hb : ∀ v, b = some v → P v) :
    ∀ v, orElseArm a b = some v → P v := by
  intro v h
  unfold orElseArm at h
  cases hx : a with
  | some t =>
      rw [hx] at h
      have ht : t = v := Option.some.inj h
      subst ht
      exact ha t hx
  | none =>
      rw [hx] at h
      exact hb v h

theorem unwrapExtract_http (netloc path : String) (params : List (String × String))
    (v : String) (h : unwrapExtract netloc path params = some v) :
    pyStartsWith v "http" = true := by
  unfold unwrapExtract at h
  refine orElseArm_cases _ _ _ (fun w hw => ite_armOk_http _ _ w hw) ?_ v h
  refine orElseArm_cases _ _ _ (fun w hw => ite_armOk_http _ _ w hw) ?_
  refine orElseArm_cases _ _ _ (fun w hw => ite_armOk_http _ _ w hw) ?_
  refine orElseArm_cases _ _ _ (fun w hw => ite_armOk_http _ _ w hw) ?_
  refine orElseArm_cases _ _ _ (fun w hw => ite_armOk_http _ _ w hw) ?_
  refine orElseArm_cases _ _ _ (fun w hw => ite_armOk_http _ _ w hw) ?_
  refine orElseArm_cases _ _ _ (fun w hw => ite_armOk_http _ _ w hw) ?_
  intro w hw
  split at hw
  · exact absurd hw (by simp)
  · split at hw
    · exact firstHttpParam_http params redirectParamCandidates w hw
    · exact absurd hw (by simp)

theorem extractTargetOf_http (s t : String) (h : extractTargetOf s = some t) :
    pyStartsWith t "http" = true := by
  unfold extractTargetOf at h
  split at h
  · exact absurd h (by simp)
  · exact unwrapExtract_http _ _ _ t h

theorem startsWith_https_not_ss (s : String) :
    pyStartsWith ("https:" ++ s) "//" = false := by
  cases s with
  | mk l => rfl

theorem startsWith_https_not_www (s : String) :
    pyStartsWith ("https:" ++ s) "www." = false := by
  cases s with
  | mk l => rfl

theorem startsWith_httpss_not_ss (s : String) :
    pyStartsWith ("https://" ++ s) "//" = false := by
  cases s with
  | mk l => rfl

theorem startsWith_httpss_not_www (s : String) :
    pyStartsWith ("https://" ++ s) "www." = false := by
  cases s with
  | mk l => rfl

theorem startsWith_http_not_ss (t : String) (h : pyStartsWith t "http" = true) :
    pyStartsWith t "//" = false := by
  cases t with
  | mk l =>
      cases l with
      | nil => exact absurd h (by decide)
      | cons c rest =>
          have h' : (('h' == c) && List.isPrefixOf ['t', 't', 'p'] rest) = true := h
          have hc : 'h' = c := eq_of_beq ((Bool.and_eq_true _ _).mp h').1
          subst hc
          rfl

theorem startsWith_http_not_www (t : String) (h : pyStartsWith t "http" = true) :
    pyStartsWith t "www." = false := by
  cases t with
  | mk l =>
      cases l with
      | nil => exact absurd h (by decide)
      | cons c rest =>
          have h' : (('h' == c) && List.isPrefixOf ['t', 't', 'p'] rest) = true := h
          have hc : 'h' = c := eq_of_beq ((Bool.and_eq_true _ _).mp h').1
          subst hc
          rfl

theorem redirectPrefixApply_of_http (t : String) (h : pyStartsWith t "http" = true) :
    redirectPrefixApply t = t := by
  unfold redirectPrefixApply
  rw [startsWith_http_not_ss t h, startsWith_http_not_www t h]
  simp

theorem redirectPrefixApply_idem (s : String) :
    redirectPrefixApply (redirectPrefixApply s) = redirectPrefixApply s := by
  by_cases h1 : pyStartsWith s "//" = true
  · have hs : redirectPrefixApply s = "https:" ++ s := by
      unfold redirectPrefixApply
      rw [h1]
      simp
    rw [hs]
    unfold redirectPrefixApply
    rw [startsWith_https_not_ss, startsWith_https_not_www]
    simp
  · by_cases h2 : pyStartsWith s "www." = true
    · have hs : redirectPrefixApply s = "https://" ++ s := by
        unfold redirectPrefixApply
        rw [h2]
        simp [h1]
      rw [hs]
      unfold redirectPrefixApply
      rw [startsWith_httpss_not_ss, startsWith_httpss_not_www]
      simp
    · have hs : redirectPrefixApply s = s := by
        unfold redirectPrefixApply
        simp [h1, h2]
      rw [hs, hs]

/-- C4 (counterexample): a DuckDuckGo redirect link whose `uddg` target is
itself a DuckDuckGo redirect link is unwrapped only one layer per call,
so `unwrap_redirect_url` is not idempotent. -/
theorem unwrap_redirect_url_not_idempotent :
    unwrapRedirectUrl (unwrapRedirectUrl
        "https://duckduckgo.com/l/?uddg=https://duckduckgo.com/l/?uddg=https://example.com") ≠
      unwrapRedirectUrl
        "https://duckduckgo.com/l/?uddg=https://duckduckgo.com/l/?uddg=https://example.com" := by
  decide

/-- C4 (amended): `unwrap_redirect_url` strips exactly one redirector
layer per call.  It is idempotent at every URL `u` whose unwrap result is
whitespace-stripped and does not itself match a redirector rule with an
extractable `http` target; a doubly wrapped redirect URL (see the
counterexample) needs one call per layer. -/
theorem unwrap_redirect_url_amended (u : String)
    (h1 : pyStrip (unwrapRedirectUrl u) = unwrapRedirectUrl u)
    (h2 : extractTargetOf (unwrapRedirectUrl u) = none) :
    unwrapRedirectUrl (unwrapRedirectUrl u) = unwrapRedirectUrl u := by
  have hr : redirectPrefixApply (unwrapRedirectUrl u) = unwrapRedirectUrl u ∨
      unwrapRedirectUrl u = "" := by
    unfold unwrapRedirectUrl
    by_cases he : (pyStrip u).isEmpty
    · right
      rw [if_pos he]
    · rw [if_neg he]
      dsimp only
      cases hx : extractTargetOf (redirectPrefixApply (pyStrip u)) with
      | some t =>
          left
          exact redirectPrefixApply_of_http t (extractTargetOf_http _ t hx)
      | none =>
          left
          exact redirectPrefixApply_idem (pyStrip u)
  rcases hr with hr | hr
  · generalize hru : unwrapRedirectUrl u = r at h1 h2 hr ⊢
    unfold unwrapRedirectUrl
    rw [h1]
    by_cases he : r.isEmpty
    · rw [if_pos he]
      exact ((String.isEmpty_iff r).mp he).symm
    · rw [if_neg he, hr]
      dsimp only
      rw [h2]
  · rw [hr]
    decide

/-- C4 (witness): the amended idempotence applied at a plain URL that no
redirector rule matches. -/
theorem unwrap_redirect_url_amended_witness :
    pyStrip (unwrapRedirectUrl "https://example.com/a") =
        unwrapRedirectUrl "https://example.com/a" ∧
    extractTargetOf (unwrapRedirectUrl "https://example.com/a") = none ∧
    unwrapRedirectUrl (unwrapRedirectUrl "https://example.com/a") =
        unwrapRedirectUrl "https://example.com/a" :=
  ⟨by decide, by decide,
    unwrap_redirect_url_amended "https://example.com/a" (by decide) (by decide)⟩

/-! ### C5: tracking-parameter normalization -/

theorem strLtCP_irrefl : ∀ l : List Char, strLtCP l l = false
  | [] => rfl
  | c :: t => by
      unfold strLtCP
      rw [if_neg (lt_irrefl c.toNat), if_neg (lt_irrefl c.toNat)]
      exact strLtCP_irrefl t

theorem strLtCP_asymm : ∀ x y : List Char, strLtCP x y = true → strLtCP y x = false := by
  intro x
  induction x with
  | nil =>
      intro y h
      cases y with
      | nil => exact absurd h (by simp [strLtCP])
      | cons b ys => rfl
  | cons a xs ih =>
      intro y h
      cases y with
      | nil => exact absurd h (by simp [strLtCP])
      | cons b ys =>
          unfold strLtCP at h ⊢
          by_cases h1 : a.toNat < b.toNat
          · rw [if_neg (by omega : ¬ b.toNat < a.toNat), if_pos h1]
          · rw [if_neg h1] at h
            by_cases h2 : b.toNat < a.toNat
            · rw [if_pos h2] at h
              exact absurd h (by simp)
            · rw [if_neg h2] at h
              rw [if_neg h2, if_neg h1]
              exact ih ys h



theorem pairLt_asymm (a b : String × String) (h : pairLt a b = true) :
    pairLt b a = false := by
  unfold pairLt at h ⊢
  rcases (Bool.or_eq_true _ _).mp h with h1 | h1
  · have hne : ¬ b.1 = a.1 := by
      intro he
      have : a.1.toList = b.1.toList := by rw [he]
      rw [this] at h1
      exact absurd h1 (by simp [strLtCP_irrefl])
    rw [strLtCP_asymm _ _ h1]
    simp [hne]
  · obtain ⟨he, hlt⟩ := (Bool.and_eq_true _ _).mp h1
    have he' : a.1 = b.1 := of_decide_eq_true he
    rw [he']
    rw [strLtCP_irrefl]
    rw [strLtCP_asymm _ _ hlt]
    simp

theorem boolNotTrue {b : Bool} (h : ¬ b = true) : b = false := by
  cases hb : b
  · rfl
  · exact absurd hb h

theorem insertPair_cons_of_lt (x y : String × String) (t : List (String × String))
    (h : pairLt x y = true) : insertPair x (y :: t) = x :: y :: t := by
  unfold insertPair
  rw [if_pos h]

theorem insertPair_cons_of_not_lt (x y : String × String) (t : List (String × String))
    (h : ¬ pairLt x y = true) : insertPair x (y :: t) = y :: insertPair x t := by
  conv_lhs => unfold insertPair
  rw [if_neg h]

theorem chain_insertPair (x : String × String) :
    ∀ l, PairsSorted l → PairsSorted (insertPair x l) := by
  intro l
  induction l with
  | nil => intro _; simp [insertPair, PairsSorted]
  | cons y t ih =>
      intro h
      obtain ⟨hhead, htail⟩ := List.chain'_cons'.mp h
      unfold insertPair
      split_ifs with hlt
      · exact List.Chain'.cons (pairLt_asymm _ _ hlt) h
      · have hxy : pairLt x y = false := boolNotTrue hlt
        apply List.chain'_cons'.mpr
        refine ⟨?_, ih htail⟩
        intro b hb
        cases t with
        | nil =>
            simp only [insertPair, List.head?_cons, Option.mem_def, Option.some.injEq] at hb
            subst hb
            exact hxy
        | cons z t' =>
            by_cases hxz : pairLt x z = true
            · rw [insertPair_cons_of_lt x z t' hxz] at hb
              simp only [List.head?_cons, Option.mem_def, Option.some.injEq] at hb
              subst hb
              exact hxy
            · rw [insertPair_cons_of_not_lt x z t' hxz] at hb
              simp only [List.head?_cons, Option.mem_def, Option.some.injEq] at hb
              subst hb
              exact hhead z (by simp)

theorem sortPairs_sorted (l : List (String × String)) : PairsSorted (sortPairs l) := by
  unfold sortPairs
  suffices h : ∀ acc, PairsSorted acc →
      PairsSorted (l.foldl (fun acc x => insertPair x acc) acc) by
    exact h [] (by simp [PairsSorted])
  induction l with
  | nil => intro acc h; exact h
  | cons x t ih => intro acc h; exact ih _ (chain_insertPair x acc h)

theorem mem_insertPair (a x : String × String) :
    ∀ l, a ∈ insertPair x l → a = x ∨ a ∈ l := by
  intro l
  induction l with
  | nil => intro h; simpa [insertPair] using h
  | cons y t ih =>
      intro h
      unfold insertPair at h
      split_ifs at h
      · rcases List.mem_cons.mp h with h | h
        · exact Or.inl h
        · exact Or.inr h
      · rcases List.mem_cons.mp h with h | h
        · exact Or.inr (List.mem_cons.mpr (Or.inl h))
        · rcases ih h with h | h
          · exact Or.inl h
          · exact Or.inr (List.mem_cons.mpr (Or.inr h))

theorem mem_sortPairs (a : String × String) (l : List (String × String))
    (h : a ∈ sortPairs l) : a ∈ l := by
  unfold sortPairs at h
  suffices hgen : ∀ acc, a ∈ l.foldl (fun acc x => insertPair x acc) acc →
      a ∈ acc ∨ a ∈ l by
    rcases hgen [] h with h | h
    · exact absurd h (List.not_mem_nil a)
    · exact h
  clear h
  induction l with
  | nil => intro acc h; exact Or.inl h
  | cons x t ih =>
      intro acc h
      rcases ih (insertPair x acc) h with h | h
      · rcases mem_insertPair a x acc h with h | h
        · exact Or.inr (List.mem_cons.mpr (Or.inl h))
        · exact Or.inl h
      · exact Or.inr (List.mem_cons.mpr (Or.inr h))

/-- C5 (counterexample): the tracking set contains six `utm_*` literals,
not a wildcard — `normalize_url_for_dedup` keeps the query key `utm_abc`,
so it does not drop every key beginning with `utm_`. -/
theorem normalize_url_keeps_nonlisted_utm_key :
    (parseQsl (queryOf (normalizeUrlForDedup "https://example.com/?utm_abc=1"))).any
      (fun kv => pyStartsWith kv.1 "utm_") = true := by
  decide

/-- C5 (amended): for every URL whose prefix-upgraded, stripped form
parses (CPython `urlparse` rejects bracket-malformed authorities; the
source then returns the input unchanged), `normalize_url_for_dedup`
re-assembles the URL with no params and no fragment and with its query
re-encoded from exactly those parsed pairs whose lowercased key is not in
the literal tracking set `_TRACKING_QUERY_KEYS` (six `utm_*` keys, five
`share_*` keys, and the listed literals such as `gclid`, `fbclid`, `ref`,
`scene`), sorted lexicographically by key then value. -/
theorem normalize_url_for_dedup_amended (u : String) (p : UrlParts)
    (hu : u.isEmpty = false)
    (hp : urlparsePy (redirectPrefixApply (pyStrip u)) = .ok p) :
    (∃ parts : UrlParts,
      normalizeUrlForDedup u = urlunparsePy parts ∧
      parts.params = "" ∧ parts.fragment = "" ∧
      parts.query = urlencodePairs (sortPairs ((parseQsl p.query).filter
        (fun kv => !(trackingQueryKeys.contains (toLowerStr kv.1)))))) ∧
    (∀ kv ∈ sortPairs ((parseQsl p.query).filter
        (fun kv => !(trackingQueryKeys.contains (toLowerStr kv.1)))),
      trackingQueryKeys.contains (toLowerStr kv.1) = false) ∧
    PairsSorted (sortPairs ((parseQsl p.query).filter
        (fun kv => !(trackingQueryKeys.contains (toLowerStr kv.1))))) := by
  refine ⟨?_, ?_, sortPairs_sorted _⟩
  · unfold normalizeUrlForDedup
    rw [if_neg (by simp [hu])]
    dsimp only
    rw [hp]
    exact ⟨_, rfl, rfl, rfl, rfl⟩
  · intro kv hkv
    have hmem := mem_sortPairs kv _ hkv
    have hcond := (List.mem_filter.mp hmem).2
    simpa using hcond

/-- C5 (witness): the amended statement applied at a URL carrying a
listed tracking key (`utm_source`) and an ordinary key. -/
theorem normalize_url_for_dedup_amended_witness :
    PairsSorted (sortPairs ((parseQsl ((urlparsePy (redirectPrefixApply
        (pyStrip "https://example.com/a?b=2&utm_source=x"))).toOption.getD
          ⟨"", "", "", "", "", ""⟩).query).filter
      (fun kv => !(trackingQueryKeys.contains (toLowerStr kv.1))))) :=
  (normalize_url_for_dedup_amended "https://example.com/a?b=2&utm_source=x"
    ((urlparsePy (redirectPrefixApply
        (pyStrip "https://example.com/a?b=2&utm_source=x"))).toOption.getD
      ⟨"", "", "", "", "", ""⟩)
    (by decide) (by rfl)).2.2

/-! ### C6: extraction fallback -/

theorem addCandidate_some_mem (p : String → Bool) (fmt : String) (score : String → Nat)
    (st : ExtState) (content : Option String) (tag : String) (st' : ExtState)
    (item : Candidate)
    (h : addCandidate p fmt score st content tag = (st', some item)) :
    item ∈ st'.candidates := by
  unfold addCandidate at h
  cases content with
  | none => exact absurd h (by simp)
  | some raw =>
      dsimp only at h
      split_ifs at h with h1 h2 h3
      · exact absurd h (by simp)
      · exact absurd h (by simp)
      · exact absurd h (by simp)
      · have h4 := congrArg Prod.fst h
        have h5 := congrArg Prod.snd h
        dsimp at h4 h5
        have hit := Option.some.inj h5
        rw [← h4, ← hit]
        simp

theorem runPlans_some_early (p : String → Bool) (fmt : String) (score : String → Nat)
    (tuning : Tuning) (qualityFirst : Bool) (minChars : Nat) :
    ∀ (raws : List (String × Option String)) (st st' : ExtState) (item : Candidate),
      runPlans p fmt score tuning qualityFirst minChars st raws = (st', some item) →
      item ∈ st'.candidates ∧
        shouldEarlyStop tuning qualityFirst minChars (some item) = true := by
  intro raws
  induction raws with
  | nil =>
      intro st st' item h
      exact absurd h (by simp [runPlans])
  | cons r rest ih =>
      intro st st' item h
      obtain ⟨tag, content⟩ := r
      unfold runPlans at h
      dsimp only at h
      by_cases hstop : shouldEarlyStop tuning qualityFirst minChars
          (addCandidate p fmt score st content tag).2 = true
      · rw [if_pos hstop] at h
        have h4 := congrArg Prod.fst h
        have h5 := congrArg Prod.snd h
        dsimp at h4 h5
        constructor
        · apply addCandidate_some_mem p fmt score st content tag st' item
          rw [← h4, ← h5]
        · rw [h5] at hstop
          exact hstop
      · rw [if_neg hstop] at h
        exact ih _ st' item h

theorem findQualified_none (mc mq : Nat) :
    ∀ l : List Candidate, (∀ c ∈ l, isHighQuality c mc mq = false) →
      findQualified mc mq l = none := by
  intro l
  induction l with
  | nil => intro _; rfl
  | cons c t ih =>
      intro h
      unfold findQualified
      rw [h c (by simp), if_neg (by simp)]
      exact ih (fun x hx => h x (List.mem_cons.mpr (Or.inr hx)))

theorem mem_insertRanked (tuning : Tuning) (a c : Candidate) :
    ∀ l, a ∈ insertRanked tuning c l → a = c ∨ a ∈ l := by
  intro l
  induction l with
  | nil => intro h; simpa [insertRanked] using h
  | cons y t ih =>
      intro h
      unfold insertRanked at h
      split_ifs at h
      · rcases List.mem_cons.mp h with h | h
        · exact Or.inr (List.mem_cons.mpr (Or.inl h))
        · rcases ih h with h | h
          · exact Or.inl h
          · exact Or.inr (List.mem_cons.mpr (Or.inr h))
      · rcases List.mem_cons.mp h with h | h
        · exact Or.inl h
        · exact Or.inr h

theorem mem_sortRanked (tuning : Tuning) (a : Candidate) (l : List Candidate)
    (h : a ∈ sortRanked tuning l) : a ∈ l := by
  unfold sortRanked at h
  suffices hgen : ∀ acc, a ∈ l.foldl (fun acc c => insertRanked tuning c acc) acc →
      a ∈ acc ∨ a ∈ l by
    rcases hgen [] h with h | h
    · exact absurd h (List.not_mem_nil a)
    · exact h
  clear h
  induction l with
  | nil => intro acc h; exact Or.inl h
  | cons c t ih =>
      intro acc h
      rcases ih (insertRanked tuning c acc) h with h | h
      · rcases mem_insertRanked tuning a c acc h with h | h
        · exact Or.inr (List.mem_cons.mpr (Or.inl h))
        · exact Or.inl h
      · exact Or.inr (List.mem_cons.mpr (Or.inr h))

theorem isHighQuality_mono (c : Candidate) (mc1 mc2 mq1 mq2 : Nat)
    (h1 : mc1 ≤ mc2) (h2 : mq1 ≤ mq2) (h : isHighQuality c mc2 mq2 = true) :
    isHighQuality c mc1 mq1 = true := by
  unfold isHighQuality at *
  simp only [Bool.and_eq_true, decide_eq_true_eq] at *
  omega

theorem internalTuning_general_le_early (strategy : String) (h : strategy ≠ "speed") :
    (internalTuning strategy).generalMinQuality ≤
      (internalTuning strategy).earlyStopQuality := by
  unfold internalTuning
  by_cases h1 : strategy = "quality"
  · rw [if_pos h1]; decide
  · rw [if_neg h1]
    by_cases h2 : strategy = "balanced"
    · rw [if_pos h2]; decide
    · rw [if_neg h2, if_neg h]; decide

/-- C6 (counterexample): a `quality`-strategy extraction where the only
candidate misses the char threshold (so nothing qualifies) and the page
has no title or description: `_extract_best_content` returns the
top-ranked candidate, not the empty terminal record with
`extractor = "none"` that C6 asserts. -/
theorem extract_best_content_none_counterexample :
    ((extractBestCandidates (fun _ => false) (fun _ => 0) "quality" "txt" 200
        [("bs4:text", some "hello")]).all
      (fun c => !(isHighQuality c 200 (internalTuning "quality").adapterMinQuality) &&
        !(isHighQuality c 200 (internalTuning "quality").generalMinQuality))) = true ∧
    (extractBestContent (fun _ => false) (fun _ => 0) "quality" "txt" 200
        [("bs4:text", some "hello")] none).extractor = "bs4:text" ∧
    (extractBestContent (fun _ => false) (fun _ => 0) "quality" "txt" 200
        [("bs4:text", some "hello")] none).extractor ≠ "none" := by
  refine ⟨by decide, by decide, by decide⟩

/-- C6 (amended): outside the `speed` strategy, when no recorded
candidate meets the thresholds of a pass it takes part in — `adapter:`
candidates fail the char-length/adapter-quality bar, and every candidate
fails the char-length/general-quality bar — the result is the degraded
candidate built from title+description (tag `meta:degraded`,
`degraded = true`) whenever that degraded text exists and is nonempty;
when no title or description can be extracted, the result is the
top-ranked candidate if any candidates exist, and only with no candidates
at all the empty terminal record with `extractor = "none"`. -/
theorem extract_best_content_fallback (p : String → Bool) (score : String → Nat)
    (strategy fmt : String) (minChars : Nat)
    (raws : List (String × Option String)) (degradedRaw : Option String)
    (hspeed : strategy ≠ "speed")
    (hq : ∀ c ∈ extractBestCandidates p score strategy fmt minChars raws,
        (pyStartsWith c.extractor "adapter:" = true →
          isHighQuality c minChars (internalTuning strategy).adapterMinQuality = false) ∧
        isHighQuality c minChars (internalTuning strategy).generalMinQuality = false) :
    (∀ d, degradedRaw = some d → d.isEmpty = false →
      (extractBestContent p score strategy fmt minChars raws degradedRaw).extractor =
          "meta:degraded" ∧
      (extractBestContent p score strategy fmt minChars raws degradedRaw).degraded = true ∧
      (extractBestContent p score strategy fmt minChars raws degradedRaw).content =
          cleanForMode p fmt d) ∧
    (degradedRaw = none →
      extractBestContent p score strategy fmt minChars raws degradedRaw =
        (sortRanked (internalTuning strategy)
          (extractBestCandidates p score strategy fmt minChars raws)).headD noneRecord ∧
      (extractBestCandidates p score strategy fmt minChars raws = [] →
        extractBestContent p score strategy fmt minChars raws degradedRaw = noneRecord)) := by
  have hrun : (runPlans p fmt score (internalTuning strategy) (strategy = "quality")
      minChars ⟨[], []⟩ raws).2 = none := by
    cases hx : (runPlans p fmt score (internalTuning strategy) (strategy = "quality")
        minChars ⟨[], []⟩ raws).2 with
    | none => rfl
    | some item =>
        exfalso
        have hpair : runPlans p fmt score (internalTuning strategy) (strategy = "quality")
            minChars ⟨[], []⟩ raws =
            ((runPlans p fmt score (internalTuning strategy) (strategy = "quality")
              minChars ⟨[], []⟩ raws).1, some item) := by
          rw [← hx]
        obtain ⟨hmem, hes⟩ := runPlans_some_early p fmt score (internalTuning strategy)
          (strategy = "quality") minChars raws ⟨[], []⟩ _ item hpair
        unfold shouldEarlyStop at hes
        have hhigh := ((Bool.and_eq_true _ _).mp hes).2
        have hgen := isHighQuality_mono item minChars
          (max minChars (internalTuning strategy).earlyStopChars)
          (internalTuning strategy).generalMinQuality
          (internalTuning strategy).earlyStopQuality
          (le_max_left _ _) (internalTuning_general_le_early strategy hspeed) hhigh
        have hfalse := (hq item hmem).2
        rw [hgen] at hfalse
        exact absurd hfalse (by simp)
  have hadapters : findQualified minChars (internalTuning strategy).adapterMinQuality
      ((sortRanked (internalTuning strategy)
        (extractBestCandidates p score strategy fmt minChars raws)).filter
        (fun c => pyStartsWith c.extractor "adapter:")) = none := by
    apply findQualified_none
    intro c hc
    have hc2 := List.mem_of_mem_filter hc
    have hc3 := mem_sortRanked _ c _ hc2
    have hpref : pyStartsWith c.extractor "adapter:" = true := (List.mem_filter.mp hc).2
    exact (hq c hc3).1 hpref
  have hgeneral : findQualified minChars (internalTuning strategy).generalMinQuality
      (sortRanked (internalTuning strategy)
        (extractBestCandidates p score strategy fmt minChars raws)) = none := by
    apply findQualified_none
    intro c hc
    exact (hq c (mem_sortRanked _ c _ hc)).2
  have hsp : decide (strategy = "speed") = false := decide_eq_false hspeed
  have hbody : extractBestContent p score strategy fmt minChars raws degradedRaw =
      (match degradedRaw with
       | some d =>
           if d.isEmpty then
             (sortRanked (internalTuning strategy)
               (extractBestCandidates p score strategy fmt minChars raws)).headD noneRecord
           else
             { content := cleanForMode p fmt d, extractor := "meta:degraded",
               qualityScore := score (cleanForMode p fmt d),
               charLen := (pyStrip (cleanForMode p fmt d)).length, degraded := true }
       | none =>
           (sortRanked (internalTuning strategy)
             (extractBestCandidates p score strategy fmt minChars raws)).headD noneRecord) := by
    unfold extractBestContent
    dsimp only
    rw [hrun]
    unfold extractBestCandidates at hadapters hgeneral ⊢
    rw [hadapters, hgeneral, hsp]
    simp only [Bool.false_and, Bool.false_eq_true, if_false]
  refine ⟨?_, ?_⟩
  · intro d hd hde
    rw [hbody, hd]
    dsimp only
    rw [if_neg (by simp [hde])]
    exact ⟨rfl, rfl, rfl⟩
  · intro hd
    rw [hbody, hd]
    refine ⟨rfl, ?_⟩
    intro hempty
    rw [hempty]
    rfl

/-- C6 (witness): the amended fallback applied at a concrete input whose
only candidate is too short to qualify and whose degraded text exists. -/
theorem extract_best_content_fallback_witness :
    (extractBestContent (fun _ => false) (fun _ => 0) "quality" "txt" 200
        [("bs4:text", some "hello")] (some "Title")).extractor = "meta:degraded" ∧
    (extractBestContent (fun _ => false) (fun _ => 0) "quality" "txt" 200
        [("bs4:text", some "hello")] (some "Title")).degraded = true := by
  have h := (extract_best_content_fallback (fun _ => false) (fun _ => 0) "quality" "txt"
    200 [("bs4:text", some "hello")] (some "Title") (by decide)
    (by decide)).1 "Title" rfl (by decide)
  exact ⟨h.1, h.2.1⟩

/-! ### C8: cleaner idempotence -/

theorem ne_nl_of_not_lb {c : Char} (hc : isLineBreak c = false) : c ≠ '\n' := by
  intro h
  subst h
  exact absurd hc (by decide)

theorem splitlinesGo_nil (f : Bool) (acc : List Char) :
    splitlinesGo f acc [] = if acc.isEmpty then [] else [acc.reverse] := rfl

theorem splitlinesGo_cons (f : Bool) (acc : List Char) (c : Char) (rest : List Char) :
    splitlinesGo f acc (c :: rest) =
      if f && c = '\n' then splitlinesGo false acc rest
      else if isLineBreak c then acc.reverse :: splitlinesGo (c = '\r') [] rest
      else splitlinesGo false (c :: acc) rest := rfl

theorem splitlinesGo_cons_other (acc : List Char) {c : Char} (rest : List Char)
    (hc : isLineBreak c = false) :
    splitlinesGo false acc (c :: rest) = splitlinesGo false (c :: acc) rest := by
  rw [splitlinesGo_cons, if_neg (by simp), if_neg (by simp [hc])]

theorem splitlinesGo_cons_nl (acc rest : List Char) :
    splitlinesGo false acc ('\n' :: rest) = acc.reverse :: splitlinesGo false [] rest := rfl

theorem splitlinesGo_run {l : List Char} (hl : NoLB l) :
    ∀ acc, splitlinesGo false acc l =
      if (acc.reverse ++ l).isEmpty then [] else [acc.reverse ++ l] := by
  induction l with
  | nil =>
      intro acc
      rw [splitlinesGo_nil]
      cases acc <;> simp
  | cons c t ih =>
      intro acc
      rw [splitlinesGo_cons_other acc t (hl c (by simp)),
        ih (fun x hx => hl x (by simp [hx])) (c :: acc)]
      simp [List.append_assoc]

theorem splitlinesGo_line_append {l : List Char} (hl : NoLB l) :
    ∀ acc rest, splitlinesGo false acc (l ++ '\n' :: rest) =
      (acc.reverse ++ l) :: splitlinesGo false [] rest := by
  induction l with
  | nil =>
      intro acc rest
      rw [List.nil_append, splitlinesGo_cons_nl]
      simp
  | cons c t ih =>
      intro acc rest
      rw [List.cons_append, splitlinesGo_cons_other acc _ (hl c (by simp)),
        ih (fun x hx => hl x (by simp [hx])) (c :: acc) rest]
      simp [List.append_assoc]

theorem joinNL_cons_ne (l : List Char) {rest : List (List Char)} (h : rest ≠ []) :
    joinNL (l :: rest) = l ++ '\n' :: joinNL rest := by
  cases rest with
  | nil => exact absurd rfl h
  | cons y t => rfl

theorem splitlinesL_join :
    ∀ L : List (List Char), (∀ l ∈ L, NoLB l) → L ≠ [] → L.getLast? ≠ some [] →
      splitlinesL (joinNL L) = L := by
  intro L
  induction L with
  | nil => intro _ h; exact absurd rfl h
  | cons l rest ih =>
      intro hno _ hlast
      cases rest with
      | nil =>
          have hlne : l ≠ [] := by
            intro he
            exact hlast (by simp [he])
          show splitlinesGo false [] (joinNL [l]) = [l]
          rw [show joinNL [l] = l from rfl, splitlinesGo_run (hno l (by simp)) []]
          simp [hlne]
      | cons y t =>
          show splitlinesGo false [] (joinNL (l :: y :: t)) = l :: y :: t
          rw [joinNL_cons_ne l (by simp),
            splitlinesGo_line_append (hno l (by simp)) [] (joinNL (y :: t))]
          have := ih (fun x hx => hno x (by simp [hx])) (by simp)
            (by rwa [List.getLast?_cons_cons] at hlast)
          rw [show splitlinesGo false [] (joinNL (y :: t)) = splitlinesL (joinNL (y :: t))
            from rfl, this]
          simp

theorem head_dropWhile_not (q : Char → Bool) :
    ∀ l : List Char, ∀ {c : Char}, (List.dropWhile q l).head? = some c → q c = false := by
  intro l
  induction l with
  | nil => intro c h; simp at h
  | cons a t ih =>
      intro c h
      rw [List.dropWhile_cons] at h
      by_cases hq : q a = true
      · rw [if_pos hq] at h
        exact ih h
      · rw [if_neg hq] at h
        have : a = c := by simpa using h
        rw [← this]
        exact Bool.eq_false_iff.mpr hq

theorem dropWhile_eq_self_of_head (q : Char → Bool) (l : List Char)
    (h : ∀ c, l.head? = some c → q c = false) : List.dropWhile q l = l := by
  cases l with
  | nil => rfl
  | cons a t =>
      rw [List.dropWhile_cons, if_neg (by simp [h a rfl])]

theorem dropWhile_fixed_head (q : Char → Bool) (l : List Char) {c : Char}
    (hf : List.dropWhile q l = l) (hc : l.head? = some c) : q c = false := by
  cases l with
  | nil => simp at hc
  | cons a t =>
      have hac : a = c := by simpa using hc
      rw [List.dropWhile_cons] at hf
      by_cases hq : q a = true
      · rw [if_pos hq] at hf
        have h1 : (List.dropWhile q t).length ≤ t.length :=
          (List.dropWhile_suffix q).sublist.length_le
        have h2 := congrArg List.length hf
        simp at h2
        omega
      · rw [← hac]
        exact Bool.eq_false_iff.mpr hq

theorem stripR_isPref (l : List Char) : stripR l <+: l := by
  have h1 : List.dropWhile pyIsSpace l.reverse <:+ l.reverse := List.dropWhile_suffix _
  have h2 := List.reverse_prefix.mpr h1
  rwa [List.reverse_reverse] at h2

theorem mem_stripLR {c : Char} {l : List Char} (h : c ∈ stripLR l) : c ∈ l :=
  (List.dropWhile_suffix pyIsSpace).subset ((stripR_isPref (stripL l)).subset h)

theorem stripL_eq_of_stripLR {l : List Char} (h : stripLR l = l) : stripL l = l := by
  have hsuf : stripL l <:+ l := List.dropWhile_suffix pyIsSpace
  have h1 : (stripL l).length ≤ l.length := hsuf.sublist.length_le
  have h2 : (stripR (stripL l)).length ≤ (stripL l).length :=
    (stripR_isPref (stripL l)).sublist.length_le
  have h3 : (stripR (stripL l)).length = l.length := congrArg List.length h
  exact hsuf.eq_of_length (by omega)

theorem stripR_eq_of_stripLR {l : List Char} (h : stripLR l = l) : stripR l = l := by
  have hL := stripL_eq_of_stripLR h
  unfold stripLR at h
  rw [hL] at h
  exact h

theorem head_not_space_of_strip {l : List Char} {c : Char} (h : stripLR l = l)
    (hc : l.head? = some c) : pyIsSpace c = false :=
  dropWhile_fixed_head pyIsSpace l (stripL_eq_of_stripLR h) hc

theorem last_not_space_of_strip {l : List Char} {c : Char} (h : stripLR l = l)
    (hc : l.getLast? = some c) : pyIsSpace c = false := by
  have hR := stripR_eq_of_stripLR h
  have hrev : List.dropWhile pyIsSpace l.reverse = l.reverse := by
    have h2 : ((List.dropWhile pyIsSpace l.reverse).reverse).reverse = l.reverse :=
      congrArg List.reverse hR
    rwa [List.reverse_reverse] at h2
  exact dropWhile_fixed_head pyIsSpace l.reverse hrev (by rwa [List.head?_reverse])

theorem stripL_eq_self_of_head {l : List Char}
    (h : ∀ c, l.head? = some c → pyIsSpace c = false) : stripL l = l :=
  dropWhile_eq_self_of_head pyIsSpace l h

theorem stripR_eq_self_of_last {l : List Char}
    (h : ∀ c, l.getLast? = some c → pyIsSpace c = false) : stripR l = l := by
  unfold stripR
  rw [dropWhile_eq_self_of_head pyIsSpace l.reverse
    (fun c hc => h c (by rwa [List.head?_reverse] at hc)), List.reverse_reverse]

theorem prefix_head_eq {l₁ l₂ : List Char} {c : Char} (h : l₁ <+: l₂)
    (hc : l₁.head? = some c) : l₂.head? = some c := by
  obtain ⟨t, rfl⟩ := h
  cases l₁ with
  | nil => simp at hc
  | cons a t1 => simpa using hc

theorem stripLR_idem (l : List Char) : stripLR (stripLR l) = stripLR l := by
  have hhead : ∀ c, (stripLR l).head? = some c → pyIsSpace c = false := by
    intro c hc
    exact head_dropWhile_not pyIsSpace l (prefix_head_eq (stripR_isPref (stripL l)) hc)
  have hlast : ∀ c, (stripLR l).getLast? = some c → pyIsSpace c = false := by
    intro c hc
    rw [← List.head?_reverse] at hc
    unfold stripLR stripR at hc
    rw [List.reverse_reverse] at hc
    exact head_dropWhile_not pyIsSpace (stripL l).reverse hc
  show stripR (stripL (stripLR l)) = stripLR l
  rw [stripL_eq_self_of_head hhead, stripR_eq_self_of_last hlast]

theorem mem_of_getLast_eq {α : Type} {l : List α} {a : α} (h : l.getLast? = some a) :
    a ∈ l := by
  rw [← List.head?_reverse] at h
  have : a ∈ l.reverse := by
    cases hr : l.reverse with
    | nil => rw [hr] at h; simp at h
    | cons b t =>
        rw [hr] at h
        have : b = a := by simpa using h
        simp [this]
  simpa using this

theorem exists_getLast_of_ne_nil {α : Type} {l : List α} (h : l ≠ []) :
    ∃ a, l.getLast? = some a := by
  rw [← List.head?_reverse]
  cases hr : l.reverse with
  | nil =>
      have := congrArg List.reverse hr
      rw [List.reverse_reverse] at this
      exact absurd this h
  | cons b t => exact ⟨b, rfl⟩

theorem eq_append_of_getLast {α : Type} {l : List α} {a : α} (h : l.getLast? = some a) :
    ∃ t, l = t ++ [a] := by
  rw [← List.head?_reverse] at h
  cases hr : l.reverse with
  | nil => rw [hr] at h; simp at h
  | cons b bt =>
      rw [hr] at h
      have hb : b = a := by simpa using h
      refine ⟨bt.reverse, ?_⟩
      have hl : l = (b :: bt).reverse := by rw [← hr, List.reverse_reverse]
      rw [hl, hb]
      simp

theorem head_joinNL_cons {l : List Char} (rest : List (List Char)) (h : l ≠ []) :
    (joinNL (l :: rest)).head? = l.head? := by
  cases rest with
  | nil => rfl
  | cons y t =>
      cases l with
      | nil => exact absurd rfl h
      | cons c w => rfl

theorem getLast_joinNL :
    ∀ L : List (List Char), ∀ {l : List Char}, L.getLast? = some l → l ≠ [] →
      (joinNL L).getLast? = l.getLast? := by
  intro L
  induction L with
  | nil => intro l h; simp at h
  | cons x rest ih =>
      intro l h hlne
      cases rest with
      | nil =>
          have : x = l := by simpa using h
          rw [show joinNL [x] = x from rfl, this]
      | cons y t =>
          rw [List.getLast?_cons_cons] at h
          have hJ := ih h hlne
          have hJne : joinNL (y :: t) ≠ [] := by
            intro he
            rw [he] at hJ
            obtain ⟨c, hc⟩ := exists_getLast_of_ne_nil hlne
            rw [hc] at hJ
            simp at hJ
          rw [joinNL_cons_ne x (by simp)]
          cases hj : joinNL (y :: t) with
          | nil => exact absurd hj hJne
          | cons d dt =>
              rw [← hJ, hj]
              rw [show x ++ '\n' :: d :: dt = x ++ ('\n' :: d :: dt) from rfl,
                List.getLast?_append, List.getLast?_cons_cons]
              obtain ⟨e, he⟩ := exists_getLast_of_ne_nil (show d :: dt ≠ [] by simp)
              rw [he]
              rfl

theorem canon_mem {p : String → Bool} :
    ∀ {L : List (List Char)} {last : Bool}, Canon p last L →
      ∀ l ∈ L, stripLR l = l ∧ NoLB l := by
  intro L
  induction L with
  | nil => intro last _ l hl; simp at hl
  | cons x rest ih =>
      intro last h l hl
      simp only [Canon] at h
      by_cases hx : x.isEmpty = true
      · rw [if_pos hx] at h
        rcases List.mem_cons.mp hl with hl | hl
        · have : x = [] := by simpa using hx
          subst this
          subst hl
          exact ⟨rfl, fun c hc => absurd hc (List.not_mem_nil c)⟩
        · exact ih h.2 l hl
      · rw [if_neg hx] at h
        rcases List.mem_cons.mp hl with hl | hl
        · subst hl
          exact ⟨h.1, h.2.2.1⟩
        · exact ih h.2.2.2 l hl

theorem canon_head_ne {p : String → Bool} {l : List Char} {rest : List (List Char)}
    (h : Canon p false (l :: rest)) : l ≠ [] := by
  intro he
  subst he
  simp only [Canon] at h
  rw [if_pos (by simp)] at h
  exact absurd h.1 (by simp)

theorem canon_tail {p : String → Bool} {l : List Char} {rest : List (List Char)}
    {last : Bool} (h : Canon p last (l :: rest)) : ∃ f, Canon p f rest := by
  simp only [Canon] at h
  by_cases hx : l.isEmpty = true
  · rw [if_pos hx] at h
    exact ⟨false, h.2⟩
  · rw [if_neg hx] at h
    exact ⟨true, h.2.2.2⟩

theorem nlCount_cons (c : Char) (t : List Char) (run : Nat) :
    nlCount (c :: t) run =
      if c = '\n' then
        if 2 ≤ run then false else nlCount t (run + 1)
      else nlCount t 0 := rfl

theorem nlCount_noNL {l : List Char} (h : ∀ c ∈ l, c ≠ '\n') :
    ∀ run, nlCount l run = true := by
  induction l with
  | nil => intro run; rfl
  | cons c t ih =>
      intro run
      rw [nlCount_cons, if_neg (h c (by simp))]
      exact ih (fun x hx => h x (by simp [hx])) 0

theorem nlCount_line_append {l : List Char} (hne : l ≠ []) (h : ∀ c ∈ l, c ≠ '\n') :
    ∀ b run, nlCount (l ++ b) run = nlCount b 0 := by
  induction l with
  | nil => exact absurd rfl hne
  | cons c t ih =>
      intro b run
      rw [List.cons_append, nlCount_cons, if_neg (h c (by simp))]
      cases t with
      | nil => rfl
      | cons d t2 => exact ih (by simp) (fun x hx => h x (by simp [hx])) b 0

theorem collapseNLAux_cons (c : Char) (t : List Char) (run : Nat) :
    collapseNLAux (c :: t) run =
      if c = '\n' then
        if 2 ≤ run then collapseNLAux t (run + 1)
        else '\n' :: collapseNLAux t (run + 1)
      else c :: collapseNLAux t 0 := rfl

theorem collapseNLAux_id :
    ∀ l : List Char, ∀ run, nlCount l run = true → collapseNLAux l run = l := by
  intro l
  induction l with
  | nil => intro run _; rfl
  | cons c t ih =>
      intro run h
      rw [nlCount_cons] at h
      rw [collapseNLAux_cons]
      by_cases hc : c = '\n'
      · rw [if_pos hc] at h
        rw [if_pos hc]
        by_cases h2 : 2 ≤ run
        · rw [if_pos h2] at h
          exact absurd h (by simp)
        · rw [if_neg h2] at h
          rw [if_neg h2, ih (run + 1) h, hc]
      · rw [if_neg hc] at h
        rw [if_neg hc, ih 0 h]

theorem nlCount_join_gen (p : String → Bool) :
    ∀ L : List (List Char), ∀ (last : Bool) (run : Nat), Canon p last L →
      (last = false ∨ run ≤ 1) → nlCount (joinNL L) run = true := by
  intro L
  induction L with
  | nil => intro last run _ _; rfl
  | cons l rest ih =>
      intro last run h hd
      simp only [Canon] at h
      by_cases hl : l.isEmpty = true
      · rw [if_pos hl] at h
        obtain ⟨hlast, hrest⟩ := h
        have hrun : run ≤ 1 := by
          rcases hd with hf | hk
          · rw [hlast] at hf; exact absurd hf (by simp)
          · exact hk
        have hle : l = [] := by simpa using hl
        subst hle
        cases rest with
        | nil => rfl
        | cons y t =>
            rw [joinNL_cons_ne [] (by simp), List.nil_append, nlCount_cons,
              if_pos rfl, if_neg (by omega)]
            exact ih false (run + 1) hrest (Or.inl rfl)
      · rw [if_neg hl] at h
        obtain ⟨hstrip, hnoise, hnolb, hrest⟩ := h
        have hlne : l ≠ [] := by simpa using hl
        have hnonl : ∀ c ∈ l, c ≠ '\n' := fun c hc => ne_nl_of_not_lb (hnolb c hc)
        cases rest with
        | nil => exact nlCount_noNL hnonl run
        | cons y t =>
            rw [joinNL_cons_ne l (by simp), nlCount_line_append hlne hnonl _ run,
              nlCount_cons, if_pos rfl, if_neg (by omega)]
            exact ih true 1 hrest (Or.inr (by omega))

theorem dropTB_cons_cons (l r : List Char) (t : List (List Char)) :
    dropTB (l :: r :: t) = l :: dropTB (r :: t) := rfl

theorem canon_dropTB (p : String → Bool) :
    ∀ (L : List (List Char)) (last : Bool), Canon p last L → Canon p last (dropTB L) := by
  intro L
  induction L with
  | nil => intro last _; exact trivial
  | cons l rest ih =>
      intro last h
      cases rest with
      | nil =>
          show Canon p last (if l.isEmpty then [] else [l])
          by_cases hl : l.isEmpty = true
          · rw [if_pos hl]; exact trivial
          · rw [if_neg hl]; exact h
      | cons y t =>
          rw [dropTB_cons_cons]
          have h2 : if l.isEmpty then last = true ∧ Canon p false (y :: t)
              else stripLR l = l ∧ isNoiseLinePred p ⟨l⟩ = false ∧ NoLB l ∧
                Canon p true (y :: t) := h
          simp only [Canon]
          by_cases hl : l.isEmpty = true
          · rw [if_pos hl] at h2 ⊢
            exact ⟨h2.1, ih false h2.2⟩
          · rw [if_neg hl] at h2 ⊢
            exact ⟨h2.1, h2.2.1, h2.2.2.1, ih true h2.2.2.2⟩

theorem dropTB_getLast_ne (p : String → Bool) :
    ∀ (L : List (List Char)) (last : Bool), Canon p last L →
      (dropTB L).getLast? ≠ some [] := by
  intro L
  induction L with
  | nil => intro last _; simp [dropTB]
  | cons l rest ih =>
      intro last h
      cases rest with
      | nil =>
          show (if l.isEmpty then [] else [l]).getLast? ≠ some []
          by_cases hl : l.isEmpty = true
          · rw [if_pos hl]; simp
          · rw [if_neg hl]
            intro he
            have : l = [] := by simpa using he
            rw [this] at hl
            exact hl rfl
      | cons y t =>
          rw [dropTB_cons_cons]
          obtain ⟨f, hf⟩ := canon_tail h
          cases hD : dropTB (y :: t) with
          | nil =>
              cases t with
              | nil =>
                  have hy : y.isEmpty = true := by
                    by_cases hy1 : y.isEmpty = true
                    · exact hy1
                    · rw [show dropTB [y] = if y.isEmpty then [] else [y] from rfl,
                        if_neg hy1] at hD
                      simp at hD
                  have hyne : y = [] := by simpa using hy
                  have hlne : l ≠ [] := by
                    intro he
                    simp only [Canon] at h
                    rw [if_pos (by simp [he])] at h
                    have h2 := h.2
                    simp only [Canon] at h2
                    rw [if_pos (by simp [hyne])] at h2
                    exact absurd h2.1 (by simp)
                  intro he
                  have : l = [] := by simpa using he
                  exact hlne this
              | cons r t2 => rw [dropTB_cons_cons] at hD; simp at hD
          | cons d dt =>
              rw [← hD]
              have := ih f hf
              rw [show (l :: dropTB (y :: t)).getLast? = (dropTB (y :: t)).getLast? from by
                rw [hD]; exact List.getLast?_cons_cons]
              exact this

theorem dropTB_eq_self :
    ∀ L : List (List Char), L.getLast? ≠ some [] → dropTB L = L := by
  intro L
  induction L with
  | nil => intro _; rfl
  | cons l rest ih =>
      intro h
      cases rest with
      | nil =>
          show (if l.isEmpty then [] else [l]) = [l]
          rw [if_neg (by intro hl; exact h (by simp [show l = [] from by simpa using hl]))]
      | cons y t =>
          rw [dropTB_cons_cons, ih (by rwa [List.getLast?_cons_cons] at h)]

theorem dropTB_append_blank :
    ∀ L : List (List Char), L ≠ [] → dropTB (L ++ [[]]) = L := by
  intro L
  induction L with
  | nil => intro h; exact absurd rfl h
  | cons x rest ih =>
      intro _
      cases rest with
      | nil => rfl
      | cons y t =>
          rw [show (x :: y :: t) ++ [[]] = x :: ((y :: t) ++ [[]]) from rfl]
          rw [show (y :: t) ++ [[]] = y :: (t ++ [[]]) from rfl]
          rw [dropTB_cons_cons, ← show (y :: t) ++ [[]] = y :: (t ++ [[]]) from rfl,
            ih (by simp)]

theorem joinNL_append_blank :
    ∀ L : List (List Char), L ≠ [] → joinNL (L ++ [[]]) = joinNL L ++ ['\n'] := by
  intro L
  induction L with
  | nil => intro h; exact absurd rfl h
  | cons x rest ih =>
      intro _
      cases rest with
      | nil => rfl
      | cons y t =>
          rw [show (x :: y :: t) ++ [[]] = x :: ((y :: t) ++ [[]]) from rfl,
            joinNL_cons_ne x (by simp), ih (by simp), joinNL_cons_ne x (by simp)]
          simp

theorem stripR_append_nl (a : List Char) : stripR (a ++ ['\n']) = stripR a := by
  unfold stripR
  rw [List.reverse_append]
  rw [show (['\n'] : List Char).reverse ++ a.reverse = '\n' :: a.reverse from by simp]
  rw [List.dropWhile_cons, if_pos (by decide)]

theorem canon_join_head {p : String → Bool} {L : List (List Char)}
    (h : Canon p false L) :
    ∀ c, (joinNL L).head? = some c → pyIsSpace c = false := by
  intro c hc
  cases L with
  | nil => simp [joinNL] at hc
  | cons l rest =>
      have hlne : l ≠ [] := canon_head_ne h
      rw [head_joinNL_cons rest hlne] at hc
      exact head_not_space_of_strip (canon_mem h l (by simp)).1 hc

theorem canon_join_last {p : String → Bool} {L : List (List Char)} {last : Bool}
    (h : Canon p last L) (hlast : L.getLast? ≠ some []) :
    ∀ c, (joinNL L).getLast? = some c → pyIsSpace c = false := by
  intro c hc
  cases L with
  | nil => simp [joinNL] at hc
  | cons x rest =>
      have hLne : (x :: rest : List (List Char)) ≠ [] := by simp
      obtain ⟨ll, hll⟩ := exists_getLast_of_ne_nil hLne
      have hllne : ll ≠ [] := by
        intro he
        rw [he] at hll
        exact hlast hll
      rw [getLast_joinNL (x :: rest) hll hllne] at hc
      exact last_not_space_of_strip (canon_mem h ll (mem_of_getLast_eq hll)).1 hc

theorem stripLR_joinNL_id {p : String → Bool} {L : List (List Char)}
    (h : Canon p false L) (hlast : L.getLast? ≠ some []) :
    stripLR (joinNL L) = joinNL L := by
  show stripR (stripL (joinNL L)) = joinNL L
  rw [stripL_eq_self_of_head (canon_join_head h),
    stripR_eq_self_of_last (canon_join_last h hlast)]

theorem canon_join_head_append {p : String → Bool} {L : List (List Char)}
    (h : Canon p false L) (hne : L ≠ []) :
    ∀ c, (joinNL L ++ ['\n']).head? = some c → pyIsSpace c = false := by
  intro c hc
  cases L with
  | nil => exact absurd rfl hne
  | cons l rest =>
      have hlne : l ≠ [] := canon_head_ne h
      have hJ : (joinNL (l :: rest) ++ ['\n']).head? = l.head? := by
        cases l with
        | nil => exact absurd rfl hlne
        | cons a w =>
            cases rest with
            | nil => rfl
            | cons y t => rfl
      rw [hJ] at hc
      exact head_not_space_of_strip (canon_mem h l (by simp)).1 hc

theorem stripLR_joinNL_append_nl {p : String → Bool} {L : List (List Char)}
    (h : Canon p false L) (hlast : L.getLast? ≠ some []) (hne : L ≠ []) :
    stripLR (joinNL L ++ ['\n']) = joinNL L := by
  show stripR (stripL (joinNL L ++ ['\n'])) = joinNL L
  rw [stripL_eq_self_of_head (canon_join_head_append h hne), stripR_append_nl,
    stripR_eq_self_of_last (canon_join_last h hlast)]

theorem cleanLinesGo_cons (p : String → Bool) (last : Bool) (raw : List Char)
    (rest : List (List Char)) :
    cleanLinesGo p last (raw :: rest) =
      if (stripLR raw).isEmpty then
        if last then [] :: cleanLinesGo p false rest
        else cleanLinesGo p last rest
      else if isNoiseLinePred p ⟨stripLR raw⟩ then cleanLinesGo p last rest
      else stripLR raw :: cleanLinesGo p true rest := rfl

theorem splitlines_noLB :
    ∀ (l acc : List Char) (f : Bool), (∀ c ∈ acc, isLineBreak c = false) →
      ∀ x ∈ splitlinesGo f acc l, NoLB x := by
  intro l
  induction l with
  | nil =>
      intro acc f hacc x hx
      rw [splitlinesGo_nil] at hx
      by_cases ha : acc.isEmpty = true
      · rw [if_pos ha] at hx
        simp at hx
      · rw [if_neg ha] at hx
        have : x = acc.reverse := by simpa using hx
        subst this
        intro c hc
        exact hacc c (by simpa using hc)
  | cons c t ih =>
      intro acc f hacc x hx
      rw [splitlinesGo_cons] at hx
      by_cases h1 : (f && c = '\n') = true
      · rw [if_pos h1] at hx
        exact ih acc false hacc x hx
      · rw [if_neg h1] at hx
        by_cases h2 : isLineBreak c = true
        · rw [if_pos h2] at hx
          rcases List.mem_cons.mp hx with hx | hx
          · subst hx
            intro d hd
            exact hacc d (by simpa using hd)
          · exact ih [] (c = '\r') (by simp) x hx
        · rw [if_neg h2] at hx
          refine ih (c :: acc) false ?_ x hx
          intro d hd
          rcases List.mem_cons.mp hd with hd | hd
          · subst hd
            exact Bool.eq_false_iff.mpr h2
          · exact hacc d hd

theorem splitlinesL_noLB (m : List Char) : ∀ x ∈ splitlinesL m, NoLB x :=
  splitlines_noLB m [] false (by simp)

theorem canon_cleanLinesGo (p : String → Bool) :
    ∀ (ls : List (List Char)) (last : Bool), (∀ l ∈ ls, NoLB l) →
      Canon p last (cleanLinesGo p last ls) := by
  intro ls
  induction ls with
  | nil => intro last _; exact trivial
  | cons raw rest ih =>
      intro last h
      have hraw : NoLB raw := h raw (by simp)
      have hrest : ∀ l ∈ rest, NoLB l := fun l hl => h l (by simp [hl])
      rw [cleanLinesGo_cons]
      by_cases hemp : (stripLR raw).isEmpty = true
      · rw [if_pos hemp]
        cases last with
        | false =>
            rw [if_neg (by simp)]
            exact ih false hrest
        | true =>
            rw [if_pos rfl]
            simp only [Canon, List.isEmpty_nil, if_true]
            exact ⟨trivial, ih false hrest⟩
      · rw [if_neg hemp]
        by_cases hnoise : isNoiseLinePred p ⟨stripLR raw⟩ = true
        · rw [if_pos hnoise]
          exact ih last hrest
        · rw [if_neg hnoise]
          simp only [Canon]
          rw [if_neg hemp]
          refine ⟨stripLR_idem raw, Bool.eq_false_iff.mpr hnoise, ?_, ih true hrest⟩
          intro c hc
          exact hraw c (mem_stripLR hc)

theorem cleanLinesGo_canon_id (p : String → Bool) :
    ∀ (L : List (List Char)) (last : Bool), Canon p last L → cleanLinesGo p last L = L := by
  intro L
  induction L with
  | nil => intro last _; rfl
  | cons l rest ih =>
      intro last h
      have h2 : if l.isEmpty then last = true ∧ Canon p false rest
          else stripLR l = l ∧ isNoiseLinePred p ⟨l⟩ = false ∧ NoLB l ∧
            Canon p true rest := h
      rw [cleanLinesGo_cons]
      by_cases hl : l.isEmpty = true
      · rw [if_pos hl] at h2
        obtain ⟨hlast, hrest⟩ := h2
        have hle : l = [] := by simpa using hl
        subst hle
        subst hlast
        rw [if_pos (by rw [show stripLR ([] : List Char) = [] from rfl]; rfl), if_pos rfl,
          ih false hrest]
      · rw [if_neg hl] at h2
        obtain ⟨hstrip, hnoise, _, hrest⟩ := h2
        rw [hstrip, if_neg hl, hnoise]
        rw [if_neg (by simp), ih true hrest]

theorem cleanExtractedText_eq (p : String → Bool) (s : String) (hs : s.isEmpty = false) :
    cleanExtractedText p s =
      ⟨stripLR (collapseNL (joinNL (cleanLinesGo p false (splitlinesL s.toList))))⟩ := by
  unfold cleanExtractedText
  rw [if_neg (by simp [hs])]

theorem clean_fixpoint {p : String → Bool} {M : List (List Char)}
    (hM : Canon p false M) (hMlast : M.getLast? ≠ some []) :
    cleanExtractedText p ⟨joinNL M⟩ = ⟨joinNL M⟩ := by
  by_cases hM0 : M = []
  · subst hM0
    show cleanExtractedText p "" = ""
    unfold cleanExtractedText
    rw [if_pos (show ("" : String).isEmpty = true from rfl)]
  · have hjne : joinNL M ≠ [] := by
      cases M with
      | nil => exact absurd rfl hM0
      | cons l rest =>
          have hlne : l ≠ [] := canon_head_ne hM
          cases l with
          | nil => exact absurd rfl hlne
          | cons c w =>
              cases rest with
              | nil => simp [joinNL]
              | cons y t => rw [joinNL_cons_ne _ (by simp)]; simp
    have hTne : (⟨joinNL M⟩ : String).isEmpty = false := by
      by_cases hb : (⟨joinNL M⟩ : String).isEmpty = true
      · exfalso
        have hd := congrArg String.data ((String.isEmpty_iff _).mp hb)
        exact hjne (by simpa using hd)
      · exact Bool.eq_false_iff.mpr hb
    rw [cleanExtractedText_eq p _ hTne,
      show (⟨joinNL M⟩ : String).toList = joinNL M from rfl,
      splitlinesL_join M (fun l hl => (canon_mem hM l hl).2) hM0 hMlast,
      cleanLinesGo_canon_id p M false hM,
      show collapseNL (joinNL M) = joinNL M from
        collapseNLAux_id (joinNL M) 0 (nlCount_join_gen p M false 0 hM (Or.inl rfl)),
      stripLR_joinNL_id hM hMlast]

/-- C8 (counterexample): `_clean_extracted_markdown` is not idempotent:
with no noise rules matching, the line `##` is first reduced to `#` (the
trailing-hash strip), and a second pass reduces `#` to the empty string,
so applying the markdown cleaner twice differs from applying it once. -/
theorem clean_extracted_markdown_not_idempotent :
    cleanExtractedMarkdown (fun _ => false)
        (cleanExtractedMarkdown (fun _ => false) "##") ≠
      cleanExtractedMarkdown (fun _ => false) "##" := by decide

/-- C8 (amended): `_clean_extracted_text` is idempotent for every noise
rule set and every input, while `_clean_extracted_markdown` is not (see
the counterexample): the text cleaner's output is made of stripped,
break-free, non-noise lines with no leading, trailing or doubled blank
lines, and such text is a fixed point of the cleaner. -/
theorem clean_extracted_text_idempotent (p : String → Bool) (s : String) :
    cleanExtractedText p (cleanExtractedText p s) = cleanExtractedText p s := by
  by_cases hs : s.isEmpty = true
  · rw [show cleanExtractedText p s = "" from by
      unfold cleanExtractedText; rw [if_pos hs]]
    unfold cleanExtractedText
    rw [if_pos (show ("" : String).isEmpty = true from rfl)]
  · have hs' : s.isEmpty = false := Bool.eq_false_iff.mpr hs
    have hCanon : Canon p false (cleanLinesGo p false (splitlinesL s.toList)) :=
      canon_cleanLinesGo p _ false (splitlinesL_noLB s.toList)
    have hM : Canon p false (dropTB (cleanLinesGo p false (splitlinesL s.toList))) :=
      canon_dropTB p _ false hCanon
    have hMlast :=
      dropTB_getLast_ne p (cleanLinesGo p false (splitlinesL s.toList)) false hCanon
    have hstep : cleanExtractedText p s =
        ⟨joinNL (dropTB (cleanLinesGo p false (splitlinesL s.toList)))⟩ := by
      rw [cleanExtractedText_eq p s hs']
      congr 1
      rw [show collapseNL (joinNL (cleanLinesGo p false (splitlinesL s.toList))) =
          joinNL (cleanLinesGo p false (splitlinesL s.toList)) from
        collapseNLAux_id _ 0 (nlCount_join_gen p _ false 0 hCanon (Or.inl rfl))]
      by_cases hlast : (cleanLinesGo p false (splitlinesL s.toList)).getLast? = some []
      · obtain ⟨L2, hdec⟩ := eq_append_of_getLast hlast
        have hL2ne : L2 ≠ [] := by
          intro he
          rw [he] at hdec
          rw [hdec] at hCanon
          exact (canon_head_ne hCanon) rfl
        have hCanonL2 : Canon p false L2 := by
          have h2 := canon_dropTB p _ false hCanon
          rw [hdec, dropTB_append_blank L2 hL2ne] at h2
          exact h2
        have hlastL2 : L2.getLast? ≠ some [] := by
          have h2 := dropTB_getLast_ne p _ false hCanon
          rw [hdec, dropTB_append_blank L2 hL2ne] at h2
          exact h2
        rw [hdec, joinNL_append_blank L2 hL2ne, dropTB_append_blank L2 hL2ne]
        exact stripLR_joinNL_append_nl hCanonL2 hlastL2 hL2ne
      · rw [dropTB_eq_self _ hlast]
        exact stripLR_joinNL_id hCanon hlast
    rw [hstep]
    exact clean_fixpoint hM hMlast

end WebSearch
